import Mathlib

/-!
Verification of the typing-duel game engine of this repository: the
count-maintaining trie of core/trie.py and the match engine of
web_game_server.py are embedded shallowly (Python dicts become ordered
association lists, floats become rationals, the per-room lock becomes an
atomic step relation, random draws become explicit oracle arguments), and
the behavioural claims about counts, scoring, ticks and keystroke handling
are settled against these definitions.
-/

namespace STG

/-! ### Association lists standing in for Python dicts
Insertion-ordered; the first occurrence of a key is authoritative.
`updateA` rewrites the value of an existing key in place, `insertA` models
`d[k] = v` (overwrite in place or append), `eraseA` models `del d[k]` /
`d.pop(k)`. -/

def lookupA {κ α : Type} [DecidableEq κ] : List (κ × α) → κ → Option α
  | [], _ => none
  | (k, v) :: t, key => if k = key then some v else lookupA t key

def updateA {κ α : Type} [DecidableEq κ] : List (κ × α) → κ → α → List (κ × α)
  | [], _, _ => []
  | (k, v) :: t, key, nv => if k = key then (k, nv) :: t else (k, v) :: updateA t key nv

def eraseA {κ α : Type} [DecidableEq κ] : List (κ × α) → κ → List (κ × α)
  | [], _ => []
  | (k, v) :: t, key => if k = key then t else (k, v) :: eraseA t key

def insertA {κ α : Type} [DecidableEq κ] (l : List (κ × α)) (key : κ) (v : α) :
    List (κ × α) :=
  if (lookupA l key).isSome then updateA l key v else l ++ [(key, v)]

/-! ### The trie of core/trie.py
`TrieNode.__init__` gives `children = {}`, `is_end_of_word = False`,
`word_text = None`, `word_object = None`, `prefix_count = 0`.  The web
server only ever inserts plain strings, so `hasattr(word_obj, "text")` is
false and the stored `word_object` is `None`; texts are `List Char`,
`str.lower()` is `Char.toLower` applied characterwise. -/

inductive TrieNode : Type where
  | mk : List (Char × TrieNode) → Bool → Option (List Char) → Option (List Char) →
      Int → TrieNode

def TrieNode.children : TrieNode → List (Char × TrieNode)
  | .mk cs _ _ _ _ => cs

def TrieNode.is_end_of_word : TrieNode → Bool
  | .mk _ e _ _ _ => e

def TrieNode.word_text : TrieNode → Option (List Char)
  | .mk _ _ t _ _ => t

def TrieNode.word_object : TrieNode → Option (List Char)
  | .mk _ _ _ o _ => o

def TrieNode.prefix_count : TrieNode → Int
  | .mk _ _ _ _ c => c

/-- A fresh `TrieNode()`. -/
def TrieNode.fresh : TrieNode := .mk [] false none none 0

/-- `node.prefix_count += 1`, done right after descending into a child. -/
def TrieNode.bump : TrieNode → TrieNode
  | .mk cs e t o c => .mk cs e t o (c + 1)

/-- `child.prefix_count -= 1`, done while walking back up in `remove`. -/
def TrieNode.unbump : TrieNode → TrieNode
  | .mk cs e t o c => .mk cs e t o (c - 1)

/-- The descending loop of `Trie.insert`: walk/create the (already
lowercased) character path, incrementing `prefix_count` at every node
entered, and mark the final node terminal with the original text as
payload (`word_object = None` for plain-string inserts). -/
def insertAux (word_text : List Char) : TrieNode → List Char → TrieNode
  | .mk cs _ _ _ pc, [] => .mk cs true (some word_text) none pc
  | .mk cs e wt wo pc, ch :: rest =>
    match lookupA cs ch with
    | some child => .mk (updateA cs ch (insertAux word_text child.bump rest)) e wt wo pc
    | none => .mk (cs ++ [(ch, insertAux word_text TrieNode.fresh.bump rest)]) e wt wo pc

/-- The reverse walk of `Trie.remove`.  `none` means the whole removal is
a no-op (a path character is missing, or the end marker is absent).
Otherwise the returned Bool says whether the caller (the parent node)
must still decrement this node and possibly prune it: it is `true`
exactly while every deeper node has been pruned, matching the
`for parent, ch in reversed(path) ... else: break` loop. -/
def removeAux : TrieNode → List Char → Option (TrieNode × Bool)
  | .mk cs e _ _ pc, [] =>
    if e then some (.mk cs false none none pc, true) else none
  | .mk cs e wt wo pc, ch :: rest =>
    match lookupA cs ch with
    | none => none
    | some child =>
      match removeAux child rest with
      | none => none
      | some (child1, cont) =>
        if cont then
          let child2 := child1.unbump
          if child2.prefix_count ≤ 0 ∧ child2.is_end_of_word = false ∧
              child2.children.isEmpty then
            some (.mk (eraseA cs ch) e wt wo pc, true)
          else
            some (.mk (updateA cs ch child2) e wt wo pc, false)
        else
          some (.mk (updateA cs ch child1) e wt wo pc, false)

def lowerList (w : List Char) : List Char := w.map Char.toLower

structure Trie where
  root : TrieNode

def Trie.empty : Trie := ⟨TrieNode.fresh⟩

def Trie.insert (t : Trie) (word_text : List Char) : Trie :=
  ⟨insertAux word_text t.root (lowerList word_text)⟩

def Trie.remove (t : Trie) (word : List Char) : Trie :=
  match removeAux t.root (lowerList word) with
  | none => t
  | some (r, _) => ⟨r⟩

/-- `Trie._descend`. -/
def descendAux : TrieNode → List Char → Option TrieNode
  | n, [] => some n
  | n, ch :: rest =>
    match lookupA n.children ch with
    | none => none
    | some c => descendAux c rest

def Trie.descend (t : Trie) (p : List Char) : Option TrieNode :=
  descendAux t.root (lowerList p)

/-- `Trie.get_prefix_count`: the `prefix_count` of the root child for the
(lowercased) letter, else 0. -/
def Trie.get_prefix_count (t : Trie) (first_char : Char) : Int :=
  match lookupA t.root.children first_char.toLower with
  | some n => n.prefix_count
  | none => 0

/-- A terminal node for `w` is reachable: descending `w`'s path succeeds
and ends on a node with the end-of-word marker set. -/
def Trie.terminalReachable (t : Trie) (w : List Char) : Bool :=
  match t.descend w with
  | some n => n.is_end_of_word
  | none => false

/-! ### The match engine of web_game_server.py
Texts, typed prefixes and remaining suffixes are `List Char`; float
coordinates and speeds are rationals; the random draws of
`_choose_unique_text` / `spawn_word` become explicit oracle arguments
(an index into the candidate list, the horizontal position, the speed
jitter); the per-room lock makes every operation atomic, which the step
relation reflects.  Socket emissions are out of scope and dropped. -/

def CANVAS_W : ℚ := 1200
def CANVAS_H : ℚ := 800
def PLAYER_LIVES : Nat := 3
def SCORE_PER_CHAR : Nat := 5
def WORD_BONUS : Nat := 10
/-- Defined in the source configuration but never read anywhere. -/
def STREAK_BONUS : Nat := 4
def MISS_LIFE_PENALTY : Nat := 1
def WORD_SPEED_BASE : ℚ := 7 / 5
def WORD_SPEED_RAND : ℚ := 3 / 5

inductive WStatus where
  | falling
  | locked
  | completed
  | missed
deriving DecidableEq

structure Player where
  sid : String
  username : String
  color : Nat × Nat × Nat
  score : Nat
  lives : Nat
  streak : Nat
  current_word_id : Option String
  ready : Bool
deriving DecidableEq

structure Word where
  id : String
  text : List Char
  x : ℚ
  y : ℚ
  speed : ℚ
  status : WStatus
  owner_sid : Option String
  typed : List Char
  remaining : List Char
deriving DecidableEq

/-- Python `set` as a duplicate-free list: `add` / `discard`. -/
def setInsert (s : List (List Char)) (x : List Char) : List (List Char) :=
  if x ∈ s then s else s ++ [x]

def setErase (s : List (List Char)) (x : List Char) : List (List Char) :=
  s.filter (fun y => decide (y ≠ x))

structure Game where
  room_id : String
  players : List (String × Player)
  words : List (String × Word)
  words_list : List (List Char)
  trie : Trie
  running : Bool
  active_texts : List (List Char)
  used_words : List (List Char)

/-- Python `isinstance(w, str) and w.isalpha()` (and the `not w or not
w.isalpha()` check of `load_word_bank`): nonempty and all letters. -/
def pyIsAlpha (w : List Char) : Bool := !w.isEmpty && w.all Char.isAlpha

/-- `Game.__init__`: empty player/word maps, the trie indexed over the
word list, empty active/used text sets.  `next_spawn_time` and the rng are
wall-clock/randomness bookkeeping represented by the spawn oracle
arguments instead. -/
def Game.init (room_id : String) (words_list : List (List Char)) : Game :=
  { room_id := room_id, players := [], words := [],
    words_list := words_list,
    trie := words_list.foldl (fun t w => if pyIsAlpha w then t.insert w else t) Trie.empty,
    running := false, active_texts := [], used_words := [] }

/-- `game.players[sid] = Player(sid, username, color)` as done by
`_pair_if_possible`; the dataclass defaults are score 0, `PLAYER_LIVES`
lives, streak 0, no current word, not ready. -/
def Game.addPlayer (g : Game) (sid username : String) (color : Nat × Nat × Nat) : Game :=
  let p : Player := {
    sid := sid, username := username, color := color, score := 0,
    lives := PLAYER_LIVES, streak := 0, current_word_id := none, ready := false }
  { g with players := insertA g.players sid p }

/-- `Game._choose_unique_text` with the random choice replaced by the
oracle index `pick` (reduced mod the candidate count).  `none` models the
`IndexError` that `rng.choice` raises on an empty sequence. -/
def Game._choose_unique_text (g : Game) (pick : Nat) : Option (List Char) :=
  let avail1 := g.words_list.filter
    (fun w => decide (w ∉ g.active_texts ∧ w ∉ g.used_words))
  if avail1.isEmpty then
    let avail2 := g.words_list.filter (fun w => decide (w ∉ g.active_texts))
    if avail2.isEmpty then g.words_list.get? (pick % g.words_list.length)
    else avail2.get? (pick % avail2.length)
  else avail1.get? (pick % avail1.length)

/-- `Game.spawn_word`: id, horizontal position and speed jitter are the
oracle arguments `wid`, `x`, `r` (in the source: a time+random id,
`randint(40, CANVAS_W-160)` and `rng.random()`). -/
def Game.spawn_word (g : Game) (pick : Nat) (wid : String) (x r : ℚ) :
    Option (Game × Word) :=
  match g._choose_unique_text pick with
  | none => none
  | some text =>
    let w : Word := {
      id := wid, text := text, x := x, y := -40,
      speed := WORD_SPEED_BASE + r * WORD_SPEED_RAND,
      status := .falling, owner_sid := none,
      typed := [], remaining := text }
    some ({ g with
      words := insertA g.words wid w,
      active_texts := setInsert g.active_texts text }, w)

/-- `Game._despawn`. -/
def Game._despawn (g : Game) (wid : String) : Game :=
  match lookupA g.words wid with
  | none => g
  | some w =>
    { g with
      words := eraseA g.words wid,
      active_texts := setErase g.active_texts w.text,
      used_words := setInsert g.used_words w.text }

/-- The per-player body of the miss loop in `Game.tick`: release the
missed word if it is this player's current word, deduct the life penalty
clamped at zero (`max(0, lives - MISS_LIFE_PENALTY)` is truncated `Nat`
subtraction), reset the streak. -/
def penalizeOne (wid : String) (p : Player) : Player :=
  { p with
    current_word_id := if p.current_word_id = some wid then none
      else p.current_word_id,
    lives := p.lives - MISS_LIFE_PENALTY,
    streak := 0 }

def missPenalize (wid : String) (ps : List (String × Player)) :
    List (String × Player) :=
  ps.map (fun sp => (sp.1, penalizeOne wid sp.2))

/-- The word loop of `Game.tick`: skip terminal words, advance `y` by the
speed, and on crossing `CANVAS_H - 120` mark the word missed, penalize
every player, and record the id for the despawn pass. -/
def tickWords : List (String × Word) → List (String × Player) →
    List (String × Word) × List (String × Player) × List String
  | [], ps => ([], ps, [])
  | (k, w) :: t, ps =>
    if w.status = .completed ∨ w.status = .missed then
      let r := tickWords t ps
      ((k, w) :: r.1, r.2.1, r.2.2)
    else
      let w1 := { w with y := w.y + w.speed }
      if CANVAS_H - 120 ≤ w1.y then
        let w2 := { w1 with status := .missed }
        let r := tickWords t (missPenalize w2.id ps)
        ((k, w2) :: r.1, r.2.1, w2.id :: r.2.2)
      else
        let r := tickWords t ps
        ((k, w1) :: r.1, r.2.1, r.2.2)

/-- `Game.tick`: run the word loop, then despawn every word that missed
(the `word_missed` broadcast carries no state and is dropped). -/
def Game.tick (g : Game) : Game :=
  let r := tickWords g.words g.players
  r.2.2.foldl Game._despawn { g with words := r.1, players := r.2.1 }

/-- Characterization of what one tick does to a single word (used to
state theorems about `Game.tick`): terminal words are skipped; the rest
fall by their speed and are marked missed on crossing `CANVAS_H - 120`. -/
def tickOne (w : Word) : Word :=
  if w.status = .completed ∨ w.status = .missed then w
  else
    let w1 := { w with y := w.y + w.speed }
    if CANVAS_H - 120 ≤ w1.y then { w1 with status := .missed } else w1

/-- This word will cross the miss line on the next tick. -/
def willMiss (w : Word) : Bool :=
  if w.status = .completed ∨ w.status = .missed then false
  else decide (CANVAS_H - 120 ≤ w.y + w.speed)

/-- The ids collected by the miss loop of one tick, in iteration order. -/
def missedIds (g : Game) : List String :=
  (g.words.filter (fun kw => willMiss kw.2)).map (fun kw => kw.2.id)

/-- The accumulated effect on one player of the per-word miss penalties
of one tick, `m` being the list of missed word ids. -/
def missAll (m : List String) (p : Player) : Player :=
  { p with
    lives := p.lives - MISS_LIFE_PENALTY * m.length,
    streak := if m.isEmpty then p.streak else 0,
    current_word_id := if m.any (fun wid => p.current_word_id == some wid) then none
      else p.current_word_id }

/-- The `"type"` field of the dict returned by `Game.type_char`; the
payload views (`to_public`, `public_players`) carry no engine state. -/
inductive Res where
  | noop
  | progress
  | completed
  | bad_key
deriving DecidableEq

/-- The free-word scan of `Game.type_char`: the first word in insertion
order that is falling, unowned, and whose remaining text starts with the
typed letter is locked to the player (first letter consumed on the spot). -/
def lockScan (sid : String) (c : Char) : List (String × Word) →
    Option (List (String × Word) × Word)
  | [] => none
  | (k, w) :: t =>
    if w.status = .falling ∧ w.owner_sid = none ∧ w.remaining.head? = some c then
      let w' := { w with
        owner_sid := some sid, status := .locked,
        typed := [c], remaining := w.remaining.tail }
      some ((k, w') :: t, w')
    else
      match lockScan sid c t with
      | none => none
      | some (t', lw) => some ((k, w) :: t', lw)

/-- The lock condition of the free-word scan. -/
def scanHit (c : Char) (w : Word) : Prop :=
  w.status = .falling ∧ w.owner_sid = none ∧ w.remaining.head? = some c

instance (c : Char) (w : Word) : Decidable (scanHit c w) := by
  unfold scanHit
  infer_instance

/-- The word as rewritten by a successful lock. -/
def lockedWord (sid : String) (c : Char) (w : Word) : Word :=
  { w with owner_sid := some sid, status := .locked,
           typed := [c], remaining := w.remaining.tail }

/-- The first falling, unowned word whose remaining text starts with `c`,
in insertion order: what the scan loop of `type_char` locks. -/
def firstMatch (c : Char) (ws : List (String × Word)) : Option (String × Word) :=
  ws.find? (fun kw => decide (scanHit c kw.2))

/-- The tail of `Game.type_char` reached when the player has no usable
current word: lock the first matching free word and score the first
letter, else reset the streak and report `bad_key`. -/
def Game.scanBranch (g : Game) (sid : String) (p : Player) (c : Char) : Game × Res :=
  match lockScan sid c g.words with
  | some (ws', lw) =>
    let p' := { p with
      current_word_id := some lw.id,
      score := p.score + SCORE_PER_CHAR,
      streak := p.streak + 1 }
    ({ g with words := ws', players := updateA g.players sid p' }, .progress)
  | none =>
    ({ g with players := updateA g.players sid { p with streak := 0 } }, .bad_key)

/-- `Game.type_char(sid, ch)`.  Note the order in the source: the payload
is lowercased BEFORE the single-lowercase-letter check, so an uppercase
letter is accepted.  `p.lives <= 0` is `lives = 0` on `Nat`. -/
def Game.type_char (g : Game) (sid : String) (ch : List Char) : Game × Res :=
  match lookupA g.players sid with
  | none => (g, .noop)
  | some p =>
    if p.lives = 0 then (g, .noop)
    else
      match lowerList ch with
      | [c] =>
        if c.isLower then
          match p.current_word_id with
          | some wid =>
            match lookupA g.words wid with
            | some w =>
              if w.owner_sid = some sid ∧ w.remaining.head? = some c then
                let w' := { w with
                  typed := w.typed ++ [c], remaining := w.remaining.tail }
                let p' := { p with
                  score := p.score + SCORE_PER_CHAR, streak := p.streak + 1 }
                if w'.remaining.isEmpty then
                  let p'' := { p' with
                    score := p'.score + WORD_BONUS, current_word_id := none }
                  let g1 := { g with
                    words := updateA g.words wid { w' with status := .completed },
                    players := updateA g.players sid p'' }
                  (g1._despawn w'.id, .completed)
                else
                  ({ g with
                    words := updateA g.words wid w',
                    players := updateA g.players sid p' }, .progress)
              else
                ({ g with players := updateA g.players sid { p with streak := 0 } },
                  .bad_key)
            | none => g.scanBranch sid p c
          | none => g.scanBranch sid p c
        else (g, .noop)
      | _ => (g, .noop)

/-- Feed a sequence of single-character keystrokes from one player
through `type_char`, collecting the reported outcomes in order. -/
def typeRun (sid : String) : Game → List Char → Game × List Res
  | g, [] => (g, [])
  | g, c :: cs =>
    let gr := g.type_char sid [c]
    let rest := typeRun sid gr.1 cs
    (rest.1, gr.2 :: rest.2)

/-- One serialized operation on a room: a tick of the loop, a keystroke,
or a spawn (with its random draws as oracle data).  A spawn whose word
list is empty raises in Python; the step relation leaves the state
unchanged there (C9 addresses the failure itself via `spawn_word`). -/
inductive Op where
  | tick : Op
  | typeChar (sid : String) (ch : List Char) : Op
  | spawn (pick : Nat) (wid : String) (x r : ℚ) : Op

def Game.step (g : Game) : Op → Game
  | .tick => g.tick
  | .typeChar sid ch => (g.type_char sid ch).1
  | .spawn pick wid x r =>
    match g.spawn_word pick wid x r with
    | some gw => gw.1
    | none => g

/-- States reachable from `g0` by any sequence of serialized operations. -/
inductive Reachable (g0 : Game) : Game → Prop where
  | refl : Reachable g0 g0
  | step (g : Game) (op : Op) : Reachable g0 g → Reachable g0 (g.step op)

/-- Well-formedness of one active word entry: the dict key is the word's
id, only falling/locked words stay in the active dict, the owner is set
exactly on locked words, typed ++ remaining is the text, and falling
words have nothing typed. -/
def WordWF (k : String) (w : Word) : Prop :=
  w.id = k ∧ (w.status = .falling ∨ w.status = .locked) ∧
    (w.owner_sid = none ↔ w.status = .falling) ∧
    w.typed ++ w.remaining = w.text ∧
    (w.status = .falling → w.typed = [])

def Game.WF (g : Game) : Prop :=
  (g.words.map Prod.fst).Nodup ∧ ∀ k w, lookupA g.words k = some w → WordWF k w

/-- The fallback word list hard-coded in `load_word_bank`. -/
def DEFAULT_WORDS : List (List Char) :=
  [['s','p','a','c','e'], ['t','y','p','i','n','g'], ['g','a','l','a','x','y'],
   ['p','l','a','n','e','t'], ['r','o','c','k','e','t'], ['c','o','m','e','t'],
   ['m','e','t','e','o','r'], ['p','y','t','h','o','n'], ['s','o','c','k','e','t'],
   ['v','e','c','t','o','r'], ['e','n','g','i','n','e']]

/-- Python `str.strip()`. -/
def pyStrip (w : List Char) : List Char :=
  ((w.dropWhile Char.isWhitespace).reverse.dropWhile Char.isWhitespace).reverse

/-- The cleanup loop at the end of `load_word_bank`: strip + lowercase,
drop empty/non-alpha entries, deduplicate keeping first occurrences. -/
def cleanWords : List (List Char) → List (List Char) → List (List Char)
  | [], _ => []
  | w :: rest, seen =>
    let w' := lowerList (pyStrip w)
    if pyIsAlpha w' = false then cleanWords rest seen
    else if w' ∈ seen then cleanWords rest seen
    else w' :: cleanWords rest (w' :: seen)

/-- `load_word_bank` as a function of the words parsed from whichever
bank file was readable (`raw = []` when no file yields anything): fall
back to the built-in list only when `raw` is empty, then clean. -/
def load_word_bank (raw : List (List Char)) : List (List Char) :=
  cleanWords (if raw.isEmpty then DEFAULT_WORDS else raw) []


/-! ### Concrete fixtures used by witnesses and counterexamples -/

def sidOne : String := "p1"
def sidTwo : String := "p2"
def roomOne : String := "room"
def widOne : String := "w1"
def textRocket : List Char := ['r', 'o', 'c', 'k', 'e', 't']
def textComet : List Char := ['c', 'o', 'm', 'e', 't']
def textA : List Char := ['a']

/-- Two paired players, word bank ["rocket", "comet"], nothing spawned. -/
def gTwo : Game :=
  ((Game.init roomOne [textRocket, textComet]).addPlayer sidOne sidOne
    (255, 120, 120)).addPlayer sidTwo sidTwo (120, 120, 255)

/-- "rocket" spawned as word `w1`. -/
def gSpawned : Game := gTwo.step (.spawn 0 widOne 100 0)

/-- Player 1 has typed 'r' and owns the lock on `w1`. -/
def gLocked : Game := (gSpawned.type_char sidOne ['r']).1

/-- A room over the one-letter bank ["a"] with "a" spawned. -/
def gOneLetter : Game :=
  ((Game.init roomOne [textA]).addPlayer sidOne sidOne
    (255, 120, 120)).step (.spawn 0 widOne 50 0)

/-- `w1` one pixel row above the miss line. -/
def wNear : Word :=
  { id := widOne, text := textRocket, x := 100, y := 679, speed := 7 / 5,
    status := .falling, owner_sid := none, typed := [], remaining := textRocket }

def gNear : Game := { gTwo with words := [(widOne, wNear)], active_texts := [textRocket] }

variable {κ α : Type} [DecidableEq κ]

theorem lookupA_append (l l' : List (κ × α)) (k : κ) :
    lookupA (l ++ l') k = ((lookupA l k).rec (lookupA l' k) (fun v => some v)) := by
  induction l with
  | nil => simp [lookupA]
  | cons h t ih =>
    obtain ⟨k', v⟩ := h
    by_cases hk : k' = k <;> simp [lookupA, hk, ih]

theorem lookupA_append_of_none {l : List (κ × α)} {k : κ} (h : lookupA l k = none)
    (l' : List (κ × α)) : lookupA (l ++ l') k = lookupA l' k := by
  rw [lookupA_append, h]

theorem lookupA_singleton_self (k : κ) (v : α) : lookupA [(k, v)] k = some v := by
  simp [lookupA]

theorem lookupA_singleton_ne {k k' : κ} (h : k' ≠ k) (v : α) :
    lookupA [(k, v)] k' = none := by
  have hk : ¬ k = k' := fun he => h he.symm
  simp [lookupA, hk]

theorem lookupA_mem {l : List (κ × α)} {k : κ} {v : α} (h : lookupA l k = some v) :
    (k, v) ∈ l := by
  induction l with
  | nil => simp [lookupA] at h
  | cons hd t ih =>
    obtain ⟨k', v'⟩ := hd
    by_cases hk : k' = k
    · subst hk
      simp [lookupA] at h
      simp [h]
    · simp [lookupA, hk] at h
      exact List.mem_cons_of_mem _ (ih h)

theorem lookupA_none_iff (l : List (κ × α)) (k : κ) :
    lookupA l k = none ↔ k ∉ l.map Prod.fst := by
  induction l with
  | nil => simp [lookupA]
  | cons hd t ih =>
    obtain ⟨k', v'⟩ := hd
    by_cases hk : k' = k
    · subst hk; simp [lookupA]
    · simp only [lookupA, if_neg hk, List.map_cons, List.mem_cons, not_or]
      rw [ih]
      constructor
      · intro hn
        exact ⟨fun he => hk he.symm, hn⟩
      · intro hn
        exact hn.2

theorem lookupA_updateA_self {l : List (κ × α)} {k : κ} {w : α}
    (h : lookupA l k = some w) (v : α) : lookupA (updateA l k v) k = some v := by
  induction l with
  | nil => simp [lookupA] at h
  | cons hd t ih =>
    obtain ⟨k', v'⟩ := hd
    by_cases hk : k' = k
    · simp [lookupA, updateA, hk]
    · simp [lookupA, updateA, hk] at h ⊢
      exact ih h

theorem lookupA_updateA_ne (l : List (κ × α)) {k k' : κ} (h : k' ≠ k) (v : α) :
    lookupA (updateA l k v) k' = lookupA l k' := by
  have hkk : ¬ k = k' := fun he => h he.symm
  induction l with
  | nil => simp [updateA]
  | cons hd t ih =>
    obtain ⟨k0, v0⟩ := hd
    by_cases hk : k0 = k
    · subst hk
      simp [updateA, lookupA, hkk]
    · simp [updateA, lookupA, hk, ih]

theorem lookupA_updateA_of_none {l : List (κ × α)} {k : κ}
    (h : lookupA l k = none) (v : α) : updateA l k v = l := by
  induction l with
  | nil => simp [updateA]
  | cons hd t ih =>
    obtain ⟨k0, v0⟩ := hd
    by_cases hk : k0 = k
    · subst hk; simp [lookupA] at h
    · simp [lookupA, hk] at h
      simp [updateA, hk, ih h]

theorem keys_updateA (l : List (κ × α)) (k : κ) (v : α) :
    (updateA l k v).map Prod.fst = l.map Prod.fst := by
  induction l with
  | nil => simp [updateA]
  | cons hd t ih =>
    obtain ⟨k0, v0⟩ := hd
    by_cases hk : k0 = k <;> simp [updateA, hk, ih]

theorem mem_updateA {l : List (κ × α)} {k : κ} {v : α} {e : κ × α}
    (h : e ∈ updateA l k v) : e ∈ l ∨ e = (k, v) := by
  induction l with
  | nil => simp [updateA] at h
  | cons hd t ih =>
    obtain ⟨k0, v0⟩ := hd
    by_cases hk : k0 = k
    · subst hk
      simp [updateA] at h
      rcases h with h | h
      · right; simp [h]
      · left; exact List.mem_cons_of_mem _ h
    · simp [updateA, hk] at h
      rcases h with h | h
      · left; simp [h]
      · rcases ih h with h' | h'
        · left; exact List.mem_cons_of_mem _ h'
        · right; exact h'

theorem lookupA_eraseA_ne (l : List (κ × α)) {k k' : κ} (h : k' ≠ k) :
    lookupA (eraseA l k) k' = lookupA l k' := by
  have hkk : ¬ k = k' := fun he => h he.symm
  induction l with
  | nil => simp [eraseA]
  | cons hd t ih =>
    obtain ⟨k0, v0⟩ := hd
    by_cases hk : k0 = k
    · subst hk
      simp [eraseA, lookupA, hkk]
    · simp [eraseA, lookupA, hk, ih]

theorem keys_eraseA_sublist (l : List (κ × α)) (k : κ) :
    ((eraseA l k).map Prod.fst).Sublist (l.map Prod.fst) := by
  induction l with
  | nil => simp [eraseA]
  | cons hd t ih =>
    obtain ⟨k0, v0⟩ := hd
    by_cases hk : k0 = k
    · simp [eraseA, hk]
    · simpa [eraseA, hk] using ih.cons₂ k0

theorem nodup_keys_eraseA {l : List (κ × α)} (h : (l.map Prod.fst).Nodup) (k : κ) :
    ((eraseA l k).map Prod.fst).Nodup :=
  (keys_eraseA_sublist l k).nodup h

theorem lookupA_eraseA_self {l : List (κ × α)} (h : (l.map Prod.fst).Nodup) (k : κ) :
    lookupA (eraseA l k) k = none := by
  induction l with
  | nil => simp [eraseA, lookupA]
  | cons hd t ih =>
    obtain ⟨k0, v0⟩ := hd
    simp only [List.map_cons, List.nodup_cons] at h
    by_cases hk : k0 = k
    · subst hk
      simp only [eraseA, if_pos rfl]
      rw [lookupA_none_iff]
      exact h.1
    · simp [eraseA, lookupA, hk, ih h.2]

theorem mem_eraseA {l : List (κ × α)} {k : κ} {e : κ × α} (h : e ∈ eraseA l k) :
    e ∈ l := by
  induction l with
  | nil => simp [eraseA] at h
  | cons hd t ih =>
    obtain ⟨k0, v0⟩ := hd
    by_cases hk : k0 = k
    · simp [eraseA, hk] at h
      exact List.mem_cons_of_mem _ h
    · simp [eraseA, hk] at h
      rcases h with h | h
      · simp [h]
      · exact List.mem_cons_of_mem _ (ih h)

theorem eraseA_of_none {l : List (κ × α)} {k : κ} (h : lookupA l k = none) :
    eraseA l k = l := by
  induction l with
  | nil => simp [eraseA]
  | cons hd t ih =>
    obtain ⟨k0, v0⟩ := hd
    by_cases hk : k0 = k
    · subst hk; simp [lookupA] at h
    · simp [lookupA, hk] at h
      simp [eraseA, hk, ih h]

theorem eraseA_append_of_none {l : List (κ × α)} {k : κ}
    (h : lookupA l k = none) (v : α) : eraseA (l ++ [(k, v)]) k = l := by
  induction l with
  | nil => simp [eraseA]
  | cons hd t ih =>
    obtain ⟨k0, v0⟩ := hd
    by_cases hk : k0 = k
    · subst hk; simp [lookupA] at h
    · simp [lookupA, hk] at h
      simp [eraseA, hk, ih h]

theorem lookupA_insertA_self (l : List (κ × α)) (k : κ) (v : α) :
    lookupA (insertA l k v) k = some v := by
  unfold insertA
  cases hl : lookupA l k with
  | none =>
    simp only [hl, Option.isSome_none, Bool.false_eq_true, if_false]
    rw [lookupA_append_of_none hl]
    exact lookupA_singleton_self k v
  | some w =>
    simp only [hl, Option.isSome_some, if_true]
    exact lookupA_updateA_self hl v

theorem lookupA_insertA_ne (l : List (κ × α)) {k k' : κ} (h : k' ≠ k) (v : α) :
    lookupA (insertA l k v) k' = lookupA l k' := by
  unfold insertA
  cases hl : lookupA l k with
  | none =>
    simp only [hl, Option.isSome_none, Bool.false_eq_true, if_false]
    rw [lookupA_append, lookupA_singleton_ne h]
    cases lookupA l k' <;> rfl
  | some w =>
    simp only [hl, Option.isSome_some, if_true]
    exact lookupA_updateA_ne l h v

theorem nodup_keys_insertA {l : List (κ × α)} (h : (l.map Prod.fst).Nodup)
    (k : κ) (v : α) : ((insertA l k v).map Prod.fst).Nodup := by
  unfold insertA
  cases hl : lookupA l k with
  | none =>
    simp only [hl, Option.isSome_none, Bool.false_eq_true, if_false]
    rw [List.map_append]
    simp only [List.map_cons, List.map_nil]
    rw [List.nodup_append]
    refine ⟨h, List.nodup_singleton k, ?_⟩
    intro a ha hb
    simp at hb
    rw [hb] at ha
    exact ((lookupA_none_iff l k).mp hl) ha
  | some w =>
    simp only [hl, Option.isSome_some, if_true]
    rw [keys_updateA]
    exact h

theorem mem_insertA {l : List (κ × α)} {k : κ} {v : α} {e : κ × α}
    (h : e ∈ insertA l k v) : e ∈ l ∨ e = (k, v) := by
  unfold insertA at h
  cases hl : lookupA l k with
  | none =>
    rw [hl] at h
    simp at h
    rcases h with h | h
    · left; exact h
    · right; simp [h]
  | some w =>
    rw [hl] at h
    simp at h
    exact mem_updateA h

theorem updateA_updateA (l : List (κ × α)) (k : κ) (v v' : α) :
    updateA (updateA l k v) k v' = updateA l k v' := by
  induction l with
  | nil => simp [updateA]
  | cons hd t ih =>
    obtain ⟨k0, v0⟩ := hd
    by_cases hk : k0 = k
    · simp [updateA, hk]
    · simp [updateA, hk, ih]

theorem updateA_self_eq {l : List (κ × α)} {k : κ} {v : α}
    (h : lookupA l k = some v) : updateA l k v = l := by
  induction l with
  | nil => simp [updateA]
  | cons hd t ih =>
    obtain ⟨k0, v0⟩ := hd
    by_cases hk : k0 = k
    · subst hk
      simp [lookupA] at h
      simp [updateA, h]
    · simp [lookupA, hk] at h
      simp [updateA, hk, ih h]

theorem lookupA_map_val {β : Type} (l : List (κ × α)) (f : κ → α → β) (k : κ) :
    lookupA (l.map (fun kw => (kw.1, f kw.1 kw.2))) k = (lookupA l k).map (f k) := by
  induction l with
  | nil => simp [lookupA]
  | cons hd t ih =>
    obtain ⟨k0, v0⟩ := hd
    by_cases hk : k0 = k
    · subst hk; simp [lookupA]
    · simp [lookupA, hk, ih]

@[simp] theorem children_mk (cs : List (Char × TrieNode)) (e : Bool)
    (wt wo : Option (List Char)) (pc : Int) :
    (TrieNode.mk cs e wt wo pc).children = cs := rfl

@[simp] theorem is_end_mk (cs : List (Char × TrieNode)) (e : Bool)
    (wt wo : Option (List Char)) (pc : Int) :
    (TrieNode.mk cs e wt wo pc).is_end_of_word = e := rfl

@[simp] theorem count_mk (cs : List (Char × TrieNode)) (e : Bool)
    (wt wo : Option (List Char)) (pc : Int) :
    (TrieNode.mk cs e wt wo pc).prefix_count = pc := rfl

@[simp] theorem bump_mk (cs : List (Char × TrieNode)) (e : Bool)
    (wt wo : Option (List Char)) (pc : Int) :
    (TrieNode.mk cs e wt wo pc).bump = .mk cs e wt wo (pc + 1) := rfl

@[simp] theorem unbump_mk (cs : List (Char × TrieNode)) (e : Bool)
    (wt wo : Option (List Char)) (pc : Int) :
    (TrieNode.mk cs e wt wo pc).unbump = .mk cs e wt wo (pc - 1) := rfl

/-- Inserting along a path that starts at a completely fresh node builds a
bare chain, and removing that same path tears the whole chain down again,
asking the caller to keep decrementing. -/
theorem removeAux_insertAux_fresh (w : List Char) (rest : List Char) :
    removeAux (insertAux w TrieNode.fresh.bump rest) rest =
      some (.mk [] false none none 1, true) := by
  induction rest with
  | nil => rfl
  | cons ch rest' ih =>
    show removeAux (insertAux w (.mk [] false none none 1) (ch :: rest')) (ch :: rest') = _
    have hins : insertAux w (.mk [] false none none (0 + 1)) (ch :: rest') =
        .mk [(ch, insertAux w TrieNode.fresh.bump rest')] false none none (0 + 1) := by
      simp [insertAux, lookupA]
    rw [show (0 : Int) + 1 = 1 by norm_num] at hins
    rw [hins]
    simp [removeAux, lookupA, ih, eraseA]

theorem lowerList_eq_self {l : List Char} (h : ∀ c ∈ l, c.toLower = c) :
    lowerList l = l := by
  induction l with
  | nil => rfl
  | cons a l ih =>
    simp only [lowerList, List.map_cons]
    rw [h a (List.mem_cons_self a l)]
    have := ih (fun c hc => h c (List.mem_cons_of_mem a hc))
    simp only [lowerList] at this
    rw [this]

theorem insertAux_nil (w : List Char) (cs : List (Char × TrieNode)) (e : Bool)
    (wt wo : Option (List Char)) (pc : Int) :
    insertAux w (.mk cs e wt wo pc) [] = .mk cs true (some w) none pc := rfl

theorem insertAux_cons_found {cs : List (Char × TrieNode)} {ch : Char}
    {child : TrieNode} (h : lookupA cs ch = some child) (w : List Char)
    (e : Bool) (wt wo : Option (List Char)) (pc : Int) (rest : List Char) :
    insertAux w (.mk cs e wt wo pc) (ch :: rest) =
      .mk (updateA cs ch (insertAux w child.bump rest)) e wt wo pc := by
  simp [insertAux, h]

theorem insertAux_cons_new {cs : List (Char × TrieNode)} {ch : Char}
    (h : lookupA cs ch = none) (w : List Char)
    (e : Bool) (wt wo : Option (List Char)) (pc : Int) (rest : List Char) :
    insertAux w (.mk cs e wt wo pc) (ch :: rest) =
      .mk (cs ++ [(ch, insertAux w TrieNode.fresh.bump rest)]) e wt wo pc := by
  simp [insertAux, h]

theorem removeAux_nil_end (cs : List (Char × TrieNode))
    (wt wo : Option (List Char)) (pc : Int) :
    removeAux (.mk cs true wt wo pc) [] = some (.mk cs false none none pc, true) := rfl

theorem removeAux_cons_prune {cs : List (Char × TrieNode)} {ch : Char}
    {child child1 : TrieNode} {rest : List Char}
    (h1 : lookupA cs ch = some child)
    (h2 : removeAux child rest = some (child1, true))
    (h3 : child1.unbump.prefix_count ≤ 0 ∧ child1.unbump.is_end_of_word = false ∧
      child1.unbump.children.isEmpty = true)
    (e : Bool) (wt wo : Option (List Char)) (pc : Int) :
    removeAux (.mk cs e wt wo pc) (ch :: rest) =
      some (.mk (eraseA cs ch) e wt wo pc, true) := by
  simp only [removeAux, children_mk, h1, h2]
  simp [h3]

theorem removeAux_cons_keep {cs : List (Char × TrieNode)} {ch : Char}
    {child child1 : TrieNode} {rest : List Char}
    (h1 : lookupA cs ch = some child)
    (h2 : removeAux child rest = some (child1, true))
    (h3 : ¬ (child1.unbump.prefix_count ≤ 0 ∧ child1.unbump.is_end_of_word = false ∧
      child1.unbump.children.isEmpty = true))
    (e : Bool) (wt wo : Option (List Char)) (pc : Int) :
    removeAux (.mk cs e wt wo pc) (ch :: rest) =
      some (.mk (updateA cs ch child1.unbump) e wt wo pc, false) := by
  have h3' : ¬ (child1.unbump.prefix_count ≤ 0 ∧ child1.unbump.is_end_of_word = false ∧
      child1.unbump.children = []) := by
    intro hx
    exact h3 ⟨hx.1, hx.2.1, by simp [hx.2.2]⟩
  simp only [removeAux, children_mk, h1, h2]
  simp [h3']

theorem descendAux_nil (n : TrieNode) : descendAux n [] = some n := rfl

theorem descendAux_cons_some {n c : TrieNode} {ch : Char}
    (h : lookupA n.children ch = some c) (rest : List Char) :
    descendAux n (ch :: rest) = descendAux c rest := by
  simp [descendAux, h]

theorem descendAux_cons_none {n : TrieNode} {ch : Char}
    (h : lookupA n.children ch = none) (rest : List Char) :
    descendAux n (ch :: rest) = none := by
  simp [descendAux, h]

theorem insert_eq (t : Trie) (w : List Char) :
    t.insert w = ⟨insertAux w t.root (lowerList w)⟩ := rfl

theorem remove_eq {t : Trie} {w : List Char} {r : TrieNode} {b : Bool}
    (h : removeAux t.root (lowerList w) = some (r, b)) : t.remove w = ⟨r⟩ := by
  unfold Trie.remove
  rw [h]

theorem descend_eq {t : Trie} {p : List Char} (hll : lowerList p = p) :
    t.descend p = descendAux t.root p := by
  unfold Trie.descend
  rw [hll]

theorem get_count_eq_some {t : Trie} {c : Char} {n : TrieNode}
    (hlc : c.toLower = c) (h : lookupA t.root.children c = some n) :
    t.get_prefix_count c = n.prefix_count := by
  unfold Trie.get_prefix_count
  rw [hlc, h]

theorem get_count_eq_none {t : Trie} {c : Char}
    (hlc : c.toLower = c) (h : lookupA t.root.children c = none) :
    t.get_prefix_count c = 0 := by
  unfold Trie.get_prefix_count
  rw [hlc, h]

theorem terminalReachable_eq_some {t : Trie} {w : List Char} {n : TrieNode}
    (h : t.descend w = some n) : t.terminalReachable w = n.is_end_of_word := by
  unfold Trie.terminalReachable
  rw [h]

theorem terminalReachable_eq_none {t : Trie} {w : List Char}
    (h : t.descend w = none) : t.terminalReachable w = false := by
  unfold Trie.terminalReachable
  rw [h]

/-- C1, counterexample: a balanced pair of one `insert` and one `remove`
of the text "abd", run on a trie that also indexes "abc" (which shares
the proper prefix "ab" with "abd"), leaves `get_prefix_count 'a'` at 2
instead of its pre-insert value 1: the reverse walk of `remove` stops as
soon as the node for "ab" is kept, so the root child for 'a' is never
decremented.  This falsifies the claim as stated. -/
theorem C1_counterexample :
    (((Trie.empty.insert ['a', 'b', 'c']).insert ['a', 'b', 'd']).remove
        ['a', 'b', 'd']).get_prefix_count 'a' ≠
      (Trie.empty.insert ['a', 'b', 'c']).get_prefix_count 'a' ∧
    (((Trie.empty.insert ['a', 'b', 'c']).insert ['a', 'b', 'd']).remove
        ['a', 'b', 'd']).get_prefix_count 'a' = 2 ∧
    (Trie.empty.insert ['a', 'b', 'c']).get_prefix_count 'a' = 1 := by
  refine ⟨?_, by decide, by decide⟩
  decide

/-- C1 (amended): a balanced insert/remove pair of a nonempty,
already-lowercase text `c0 :: cs` that is not currently indexed restores
`get_prefix_count c0` to its pre-insert value and leaves no reachable
terminal node for the text, provided nothing already in the trie shares a
prefix of length ≥ 2 with the text (its whole path below the root child
is fresh; sharing just the first letter is fine).  The nodup and
nonnegative-count hypotheses are hygiene facts of every trie actually
built by `insert`/`remove`. -/
theorem C1_trie_count_restored (t : Trie) (c0 : Char) (cs : List Char)
    (hlow : ∀ c ∈ c0 :: cs, c.toLower = c)
    (hnodup : (t.root.children.map Prod.fst).Nodup)
    (habs : t.terminalReachable (c0 :: cs) = false)
    (hshare : ∀ c1 cs', cs = c1 :: cs' → t.descend [c0, c1] = none)
    (hcnt : 0 ≤ t.get_prefix_count c0) :
    ((t.insert (c0 :: cs)).remove (c0 :: cs)).get_prefix_count c0 =
        t.get_prefix_count c0 ∧
      ((t.insert (c0 :: cs)).remove (c0 :: cs)).terminalReachable (c0 :: cs) =
        false := by
  have hlow0 : c0.toLower = c0 := hlow c0 (List.mem_cons_self _ _)
  have hll : lowerList (c0 :: cs) = c0 :: cs := lowerList_eq_self hlow
  rcases ht : t.root with ⟨cs0, e0, wt0, wo0, pc0⟩
  have hnodup' : (cs0.map Prod.fst).Nodup := by
    rw [ht] at hnodup
    simpa using hnodup
  have hrootins : (t.insert (c0 :: cs)).root =
      insertAux (c0 :: cs) (.mk cs0 e0 wt0 wo0 pc0) (c0 :: cs) := by
    rw [insert_eq, hll, ht]
  cases hc : lookupA cs0 c0 with
  | none =>
    -- the whole path for the text is fresh: insert builds a bare chain
    -- under a new root child and remove prunes it away entirely.
    have h1 : insertAux (c0 :: cs) (.mk cs0 e0 wt0 wo0 pc0) (c0 :: cs) =
        .mk (cs0 ++ [(c0, insertAux (c0 :: cs) TrieNode.fresh.bump cs)]) e0 wt0 wo0 pc0 :=
      insertAux_cons_new hc (c0 :: cs) e0 wt0 wo0 pc0 cs
    have hlk : lookupA (cs0 ++ [(c0, insertAux (c0 :: cs) TrieNode.fresh.bump cs)]) c0 =
        some (insertAux (c0 :: cs) TrieNode.fresh.bump cs) := by
      rw [lookupA_append_of_none hc]
      exact lookupA_singleton_self _ _
    have h3 : removeAux (.mk (cs0 ++ [(c0, insertAux (c0 :: cs) TrieNode.fresh.bump cs)])
          e0 wt0 wo0 pc0) (c0 :: cs) =
        some (.mk (eraseA (cs0 ++ [(c0, insertAux (c0 :: cs) TrieNode.fresh.bump cs)]) c0)
          e0 wt0 wo0 pc0, true) :=
      removeAux_cons_prune hlk (removeAux_insertAux_fresh _ _) (by simp) _ _ _ _
    have hfin : (t.insert (c0 :: cs)).remove (c0 :: cs) = t := by
      have := remove_eq (t := t.insert (c0 :: cs)) (w := c0 :: cs)
        (by rw [hll, hrootins, h1]; exact h3)
      rw [this, eraseA_append_of_none hc, ← ht]
    rw [hfin]
    exact ⟨rfl, habs⟩
  | some child =>
    obtain ⟨ccs, ce, cwt, cwo, ck⟩ := child
    have hcroot : lookupA (TrieNode.mk cs0 e0 wt0 wo0 pc0).children c0 =
        some (.mk ccs ce cwt cwo ck) := by simpa using hc
    have hpre : t.get_prefix_count c0 = ck := by
      rw [get_count_eq_some hlow0 (by rw [ht]; exact hcroot)]
      rfl
    have hcnt' : 0 ≤ ck := hpre ▸ hcnt
    cases cs with
    | nil =>
      -- one-letter text: the root child itself carries the end marker.
      have hdes : t.descend [c0] = some (.mk ccs ce cwt cwo ck) := by
        rw [descend_eq hll, ht, descendAux_cons_some hcroot, descendAux_nil]
      have hce : ce = false := by
        have := terminalReachable_eq_some hdes
        rw [habs] at this
        exact this.symm
      have h1 : insertAux [c0] (.mk cs0 e0 wt0 wo0 pc0) [c0] =
          .mk (updateA cs0 c0 (.mk ccs true (some [c0]) none (ck + 1))) e0 wt0 wo0 pc0 := by
        rw [insertAux_cons_found hc]
        rfl
      have hlk : lookupA (updateA cs0 c0 (.mk ccs true (some [c0]) none (ck + 1))) c0 =
          some (.mk ccs true (some [c0]) none (ck + 1)) :=
        lookupA_updateA_self hc _
      have h2 : removeAux (.mk ccs true (some [c0]) none (ck + 1) : TrieNode) [] =
          some (.mk ccs false none none (ck + 1), true) := rfl
      by_cases hp : ck ≤ 0 ∧ ccs = []
      · -- the root child is pruned; its count was 0 to begin with.
        have h3 : removeAux (.mk (updateA cs0 c0 (.mk ccs true (some [c0]) none (ck + 1)))
              e0 wt0 wo0 pc0) [c0] =
            some (.mk (eraseA (updateA cs0 c0 (.mk ccs true (some [c0]) none (ck + 1))) c0)
              e0 wt0 wo0 pc0, true) := by
          refine removeAux_cons_prune hlk h2 ?_ _ _ _ _
          simp [hp.1, hp.2]
        have hfin : (t.insert [c0]).remove [c0] =
            ⟨.mk (eraseA (updateA cs0 c0 (.mk ccs true (some [c0]) none (ck + 1))) c0)
              e0 wt0 wo0 pc0⟩ :=
          remove_eq (by rw [hll, hrootins, h1]; exact h3)
        have hnone : lookupA (eraseA (updateA cs0 c0
            (.mk ccs true (some [c0]) none (ck + 1))) c0) c0 = none :=
          lookupA_eraseA_self (by rw [keys_updateA]; exact hnodup') c0
        have hk0 : ck = 0 := le_antisymm hp.1 hcnt'
        constructor
        · rw [hfin, get_count_eq_none hlow0 (by simpa using hnone), hpre, hk0]
        · rw [hfin]
          refine terminalReachable_eq_none ?_
          rw [descend_eq hll]
          exact descendAux_cons_none (by simpa using hnone) _
      · -- the root child survives with its old count.
        have h3 : removeAux (.mk (updateA cs0 c0 (.mk ccs true (some [c0]) none (ck + 1)))
              e0 wt0 wo0 pc0) [c0] =
            some (.mk (updateA (updateA cs0 c0 (.mk ccs true (some [c0]) none (ck + 1))) c0
              (.mk ccs false none none (ck + 1 - 1))) e0 wt0 wo0 pc0, false) := by
          refine removeAux_cons_keep hlk h2 ?_ _ _ _ _
          intro hx
          refine hp ⟨?_, ?_⟩
          · have := hx.1
            simp only [unbump_mk, count_mk] at this
            linarith
          · have := hx.2.2
            simp only [unbump_mk, children_mk, List.isEmpty_iff] at this
            exact this
        have hfin : (t.insert [c0]).remove [c0] =
            ⟨.mk (updateA cs0 c0 (.mk ccs false none none ck)) e0 wt0 wo0 pc0⟩ := by
          have := remove_eq (t := t.insert [c0]) (w := [c0])
            (by rw [hll, hrootins, h1]; exact h3)
          rw [this, updateA_updateA]
          norm_num
        have hlk2 : lookupA (updateA cs0 c0 (.mk ccs false none none ck)) c0 =
            some (.mk ccs false none none ck) :=
          lookupA_updateA_self hc _
        constructor
        · rw [hfin, get_count_eq_some hlow0 (by simpa using hlk2), hpre]
          rfl
        · rw [hfin]
          have hdes2 : Trie.descend ⟨.mk (updateA cs0 c0 (.mk ccs false none none ck))
              e0 wt0 wo0 pc0⟩ [c0] = some (.mk ccs false none none ck) := by
            rw [descend_eq hll, descendAux_cons_some (by simpa using hlk2), descendAux_nil]
          rw [terminalReachable_eq_some hdes2]
          rfl
    | cons c1 cs' =>
      -- the path below the shared first letter is fresh by `hshare`.
      have hlow1 : c1.toLower = c1 := hlow c1 (by simp)
      have hccs : lookupA ccs c1 = none := by
        have hd := hshare c1 cs' rfl
        rw [descend_eq (by simp [lowerList, hlow0, hlow1]), ht,
          descendAux_cons_some hcroot] at hd
        cases hcc : lookupA ccs c1 with
        | none => rfl
        | some n =>
          rw [descendAux_cons_some (by simpa using hcc), descendAux_nil] at hd
          cases hd
      have h1 : insertAux (c0 :: c1 :: cs') (.mk cs0 e0 wt0 wo0 pc0) (c0 :: c1 :: cs') =
          .mk (updateA cs0 c0 (.mk (ccs ++
            [(c1, insertAux (c0 :: c1 :: cs') TrieNode.fresh.bump cs')]) ce cwt cwo (ck + 1)))
            e0 wt0 wo0 pc0 := by
        rw [insertAux_cons_found hc, bump_mk, insertAux_cons_new hccs]
      have hlk : lookupA (updateA cs0 c0 (.mk (ccs ++
            [(c1, insertAux (c0 :: c1 :: cs') TrieNode.fresh.bump cs')]) ce cwt cwo (ck + 1))) c0 =
          some (.mk (ccs ++
            [(c1, insertAux (c0 :: c1 :: cs') TrieNode.fresh.bump cs')]) ce cwt cwo (ck + 1)) :=
        lookupA_updateA_self hc _
      have hlk1 : lookupA (ccs ++
            [(c1, insertAux (c0 :: c1 :: cs') TrieNode.fresh.bump cs')]) c1 =
          some (insertAux (c0 :: c1 :: cs') TrieNode.fresh.bump cs') := by
        rw [lookupA_append_of_none hccs]
        exact lookupA_singleton_self _ _
      have h3 : removeAux (.mk (ccs ++
            [(c1, insertAux (c0 :: c1 :: cs') TrieNode.fresh.bump cs')]) ce cwt cwo (ck + 1))
            (c1 :: cs') =
          some (.mk ccs ce cwt cwo (ck + 1), true) := by
        have := removeAux_cons_prune hlk1 (removeAux_insertAux_fresh _ _) (by simp)
          ce cwt cwo (ck + 1)
        rw [this, eraseA_append_of_none hccs]
      by_cases hq : ck ≤ 0 ∧ ce = false ∧ ccs = []
      · have h5 : removeAux (.mk (updateA cs0 c0 (.mk (ccs ++
              [(c1, insertAux (c0 :: c1 :: cs') TrieNode.fresh.bump cs')]) ce cwt cwo (ck + 1)))
              e0 wt0 wo0 pc0) (c0 :: c1 :: cs') =
            some (.mk (eraseA (updateA cs0 c0 (.mk (ccs ++
              [(c1, insertAux (c0 :: c1 :: cs') TrieNode.fresh.bump cs')]) ce cwt cwo (ck + 1))) c0)
              e0 wt0 wo0 pc0, true) := by
          refine removeAux_cons_prune hlk h3 ?_ _ _ _ _
          simp [hq.1, hq.2.1, hq.2.2]
        have hfin : (t.insert (c0 :: c1 :: cs')).remove (c0 :: c1 :: cs') =
            ⟨.mk (eraseA (updateA cs0 c0 (.mk (ccs ++
              [(c1, insertAux (c0 :: c1 :: cs') TrieNode.fresh.bump cs')]) ce cwt cwo (ck + 1))) c0)
              e0 wt0 wo0 pc0⟩ :=
          remove_eq (by rw [hll, hrootins, h1]; exact h5)
        have hnone : lookupA (eraseA (updateA cs0 c0 (.mk (ccs ++
            [(c1, insertAux (c0 :: c1 :: cs') TrieNode.fresh.bump cs')]) ce cwt cwo (ck + 1))) c0)
            c0 = none :=
          lookupA_eraseA_self (by rw [keys_updateA]; exact hnodup') c0
        have hk0 : ck = 0 := le_antisymm hq.1 hcnt'
        constructor
        · rw [hfin, get_count_eq_none hlow0 (by simpa using hnone), hpre, hk0]
        · rw [hfin]
          refine terminalReachable_eq_none ?_
          rw [descend_eq hll]
          exact descendAux_cons_none (by simpa using hnone) _
      · -- the root child is kept: the whole trie is restored exactly.
        have h5 : removeAux (.mk (updateA cs0 c0 (.mk (ccs ++
              [(c1, insertAux (c0 :: c1 :: cs') TrieNode.fresh.bump cs')]) ce cwt cwo (ck + 1)))
              e0 wt0 wo0 pc0) (c0 :: c1 :: cs') =
            some (.mk (updateA (updateA cs0 c0 (.mk (ccs ++
              [(c1, insertAux (c0 :: c1 :: cs') TrieNode.fresh.bump cs')]) ce cwt cwo (ck + 1))) c0
              (.mk ccs ce cwt cwo (ck + 1 - 1))) e0 wt0 wo0 pc0, false) := by
          refine removeAux_cons_keep hlk h3 ?_ _ _ _ _
          intro hx
          refine hq ⟨?_, ?_, ?_⟩
          · have := hx.1
            simp only [unbump_mk, count_mk] at this
            linarith
          · have := hx.2.1
            simp only [unbump_mk, is_end_mk] at this
            exact this
          · have := hx.2.2
            simp only [unbump_mk, children_mk, List.isEmpty_iff] at this
            exact this
        have hfin : (t.insert (c0 :: c1 :: cs')).remove (c0 :: c1 :: cs') = t := by
          have := remove_eq (t := t.insert (c0 :: c1 :: cs')) (w := c0 :: c1 :: cs')
            (by rw [hll, hrootins, h1]; exact h5)
          rw [this, updateA_updateA]
          have hck : ck + 1 - 1 = ck := by ring
          rw [hck, updateA_self_eq hc, ← ht]
        rw [hfin]
        exact ⟨rfl, habs⟩

/-- C1, witness for the amended theorem: the trie holding just "ax" and
the text "ab" (shared first letter only) satisfy every hypothesis, and
the balanced insert/remove pair indeed restores the count for 'a' to 1
and leaves no terminal node for "ab". -/
theorem C1_trie_count_restored_witness :
    (((Trie.empty.insert ['a', 'x']).insert ['a', 'b']).remove
        ['a', 'b']).get_prefix_count 'a' =
      (Trie.empty.insert ['a', 'x']).get_prefix_count 'a' ∧
    (((Trie.empty.insert ['a', 'x']).insert ['a', 'b']).remove
        ['a', 'b']).terminalReachable ['a', 'b'] = false :=
  C1_trie_count_restored (Trie.empty.insert ['a', 'x']) 'a' ['b']
    (by decide) (by decide) (by decide)
    (by
      intro c1 cs' h
      injection h with h1 h2
      subst h1
      rfl)
    (by decide)


/-! ### Characterizing one tick -/

theorem tickOne_skip {w : Word} (hs : w.status = .completed ∨ w.status = .missed) :
    tickOne w = w := by
  unfold tickOne
  rw [if_pos hs]

theorem tickOne_miss {w : Word} (hs : ¬ (w.status = .completed ∨ w.status = .missed))
    (hy : CANVAS_H - 120 ≤ w.y + w.speed) :
    tickOne w = { w with y := w.y + w.speed, status := .missed } := by
  unfold tickOne
  rw [if_neg hs]
  show (if CANVAS_H - 120 ≤ w.y + w.speed then _ else _) = _
  rw [if_pos hy]

theorem tickOne_fall {w : Word} (hs : ¬ (w.status = .completed ∨ w.status = .missed))
    (hy : ¬ CANVAS_H - 120 ≤ w.y + w.speed) :
    tickOne w = { w with y := w.y + w.speed } := by
  unfold tickOne
  rw [if_neg hs]
  show (if CANVAS_H - 120 ≤ w.y + w.speed then _ else _) = _
  rw [if_neg hy]

theorem willMiss_skip {w : Word} (hs : w.status = .completed ∨ w.status = .missed) :
    willMiss w = false := by
  unfold willMiss
  rw [if_pos hs]

theorem willMiss_active {w : Word} (hs : ¬ (w.status = .completed ∨ w.status = .missed)) :
    willMiss w = decide (CANVAS_H - 120 ≤ w.y + w.speed) := by
  unfold willMiss
  rw [if_neg hs]

theorem tickWords_cons_skip {w : Word} (k : String) (t : List (String × Word))
    (ps : List (String × Player)) (hs : w.status = .completed ∨ w.status = .missed) :
    tickWords ((k, w) :: t) ps =
      ((k, w) :: (tickWords t ps).1, (tickWords t ps).2.1, (tickWords t ps).2.2) := by
  conv_lhs => unfold tickWords
  rw [if_pos hs]

theorem tickWords_cons_miss {w : Word} (k : String) (t : List (String × Word))
    (ps : List (String × Player)) (hs : ¬ (w.status = .completed ∨ w.status = .missed))
    (hy : CANVAS_H - 120 ≤ w.y + w.speed) :
    tickWords ((k, w) :: t) ps =
      ((k, { w with y := w.y + w.speed, status := .missed }) ::
          (tickWords t (missPenalize w.id ps)).1,
        (tickWords t (missPenalize w.id ps)).2.1,
        w.id :: (tickWords t (missPenalize w.id ps)).2.2) := by
  conv_lhs => unfold tickWords
  rw [if_neg hs]
  show (if CANVAS_H - 120 ≤ w.y + w.speed then _ else _) = _
  rw [if_pos hy]

theorem tickWords_cons_fall {w : Word} (k : String) (t : List (String × Word))
    (ps : List (String × Player)) (hs : ¬ (w.status = .completed ∨ w.status = .missed))
    (hy : ¬ CANVAS_H - 120 ≤ w.y + w.speed) :
    tickWords ((k, w) :: t) ps =
      ((k, { w with y := w.y + w.speed }) :: (tickWords t ps).1,
        (tickWords t ps).2.1, (tickWords t ps).2.2) := by
  conv_lhs => unfold tickWords
  rw [if_neg hs]
  show (if CANVAS_H - 120 ≤ w.y + w.speed then _ else _) = _
  rw [if_neg hy]

theorem tickWords_words (ws : List (String × Word)) (ps : List (String × Player)) :
    (tickWords ws ps).1 = ws.map (fun kw => (kw.1, tickOne kw.2)) := by
  induction ws generalizing ps with
  | nil => rfl
  | cons hd t ih =>
    obtain ⟨k, w⟩ := hd
    by_cases hs : w.status = .completed ∨ w.status = .missed
    · rw [tickWords_cons_skip k t ps hs]
      simp only [List.map_cons]
      rw [ih, tickOne_skip hs]
    · by_cases hy : CANVAS_H - 120 ≤ w.y + w.speed
      · rw [tickWords_cons_miss k t ps hs hy]
        simp only [List.map_cons]
        rw [ih, tickOne_miss hs hy]
      · rw [tickWords_cons_fall k t ps hs hy]
        simp only [List.map_cons]
        rw [ih, tickOne_fall hs hy]

theorem tickWords_missed (ws : List (String × Word)) (ps : List (String × Player)) :
    (tickWords ws ps).2.2 =
      (ws.filter (fun kw => willMiss kw.2)).map (fun kw => kw.2.id) := by
  induction ws generalizing ps with
  | nil => rfl
  | cons hd t ih =>
    obtain ⟨k, w⟩ := hd
    by_cases hs : w.status = .completed ∨ w.status = .missed
    · rw [tickWords_cons_skip k t ps hs]
      simp only [List.filter_cons, willMiss_skip hs]
      simpa using ih ps
    · by_cases hy : CANVAS_H - 120 ≤ w.y + w.speed
      · rw [tickWords_cons_miss k t ps hs hy]
        simp only [List.filter_cons, willMiss_active hs]
        rw [if_pos (by exact decide_eq_true hy)]
        simp only [List.map_cons]
        rw [ih]
      · rw [tickWords_cons_fall k t ps hs hy]
        simp only [List.filter_cons, willMiss_active hs]
        rw [if_neg (by simp only [decide_eq_true_eq]; exact hy)]
        exact ih ps

theorem tickWords_players (ws : List (String × Word)) (ps : List (String × Player)) :
    (tickWords ws ps).2.1 =
      (tickWords ws ps).2.2.foldl (fun a wid => missPenalize wid a) ps := by
  induction ws generalizing ps with
  | nil => rfl
  | cons hd t ih =>
    obtain ⟨k, w⟩ := hd
    by_cases hs : w.status = .completed ∨ w.status = .missed
    · rw [tickWords_cons_skip k t ps hs]
      exact ih ps
    · by_cases hy : CANVAS_H - 120 ≤ w.y + w.speed
      · rw [tickWords_cons_miss k t ps hs hy]
        dsimp only
        rw [List.foldl_cons]
        exact ih (missPenalize w.id ps)
      · rw [tickWords_cons_fall k t ps hs hy]
        exact ih ps

theorem missAll_nil (p : Player) : missAll [] p = p := by
  cases p
  simp [missAll]

theorem missAll_penalizeOne (wid : String) (m : List String) (p : Player) :
    missAll m (penalizeOne wid p) = missAll (wid :: m) p := by
  unfold missAll penalizeOne
  by_cases hc : p.current_word_id = some wid
  · simp only [hc, if_pos rfl]
    cases m <;> simp [MISS_LIFE_PENALTY, Nat.sub_sub, Nat.mul_succ, Nat.mul_comm] <;> omega
  · have hb : (p.current_word_id == some wid) = false := by
      simp [hc]
    simp only [if_neg hc]
    cases m <;>
        simp [MISS_LIFE_PENALTY, Nat.sub_sub, Nat.mul_succ, Nat.mul_comm, hb, hc] <;>
      omega

theorem foldl_missPenalize (m : List String) (ps : List (String × Player)) :
    m.foldl (fun a wid => missPenalize wid a) ps =
      ps.map (fun sp => (sp.1, missAll m sp.2)) := by
  induction m generalizing ps with
  | nil =>
    simp only [List.foldl_nil]
    have h2 : ps.map (fun sp => (sp.1, missAll [] sp.2)) = ps.map id := by
      apply List.map_congr_left
      intro sp _
      rw [missAll_nil]
      rfl
    rw [h2, List.map_id]
  | cons wid m' ih =>
    simp only [List.foldl_cons]
    rw [ih, missPenalize, List.map_map]
    apply List.map_congr_left
    intro sp _
    simp only [Function.comp_apply]
    rw [missAll_penalizeOne]

theorem despawn_words (g : Game) (wid : String) :
    (g._despawn wid).words = eraseA g.words wid := by
  unfold Game._despawn
  cases h : lookupA g.words wid with
  | none => simp [eraseA_of_none h]
  | some w => rfl

theorem despawn_players (g : Game) (wid : String) :
    (g._despawn wid).players = g.players := by
  unfold Game._despawn
  cases h : lookupA g.words wid with
  | none => rfl
  | some w => rfl

theorem foldl_despawn_words (m : List String) (g : Game) :
    (m.foldl Game._despawn g).words = m.foldl eraseA g.words := by
  induction m generalizing g with
  | nil => rfl
  | cons wid m' ih =>
    simp only [List.foldl_cons]
    rw [ih, despawn_words]

theorem foldl_despawn_players (m : List String) (g : Game) :
    (m.foldl Game._despawn g).players = g.players := by
  induction m generalizing g with
  | nil => rfl
  | cons wid m' ih =>
    simp only [List.foldl_cons]
    rw [ih, despawn_players]

theorem nodup_keys_foldl_eraseA (m : List String) :
    ∀ ws : List (String × Word), (ws.map Prod.fst).Nodup →
      ((m.foldl eraseA ws).map Prod.fst).Nodup := by
  induction m with
  | nil =>
    intro ws h
    exact h
  | cons wid m' ih =>
    intro ws h
    simp only [List.foldl_cons]
    exact ih _ (nodup_keys_eraseA h wid)

theorem lookupA_foldl_eraseA (m : List String) :
    ∀ (ws : List (String × Word)), (ws.map Prod.fst).Nodup → ∀ k,
      lookupA (m.foldl eraseA ws) k = if k ∈ m then none else lookupA ws k := by
  induction m with
  | nil =>
    intro ws h k
    simp
  | cons wid m' ih =>
    intro ws h k
    simp only [List.foldl_cons]
    by_cases hk : k = wid
    · rw [ih _ (nodup_keys_eraseA h wid) k, hk]
      by_cases hm : wid ∈ m'
      · simp [hm]
      · simp [hm, lookupA_eraseA_self h]
    · rw [ih _ (nodup_keys_eraseA h wid) k]
      by_cases hm : k ∈ m'
      · simp [hm]
      · simp [hm, hk, lookupA_eraseA_ne _ hk]

theorem tick_words_eq (g : Game) :
    (g.tick).words =
      (missedIds g).foldl eraseA (g.words.map (fun kw => (kw.1, tickOne kw.2))) := by
  unfold Game.tick
  rw [foldl_despawn_words]
  simp only [tickWords_words, tickWords_missed]
  rfl

theorem tick_players_eq (g : Game) :
    (g.tick).players = g.players.map (fun sp => (sp.1, missAll (missedIds g) sp.2)) := by
  unfold Game.tick
  rw [foldl_despawn_players]
  simp only [tickWords_players, tickWords_missed, foldl_missPenalize]
  rfl


/-! ### Unfolding type_char branch by branch -/

theorem tc_unknown {g : Game} {sid : String} (ch : List Char)
    (h : lookupA g.players sid = none) : g.type_char sid ch = (g, .noop) := by
  unfold Game.type_char
  rw [h]

theorem tc_dead {g : Game} {sid : String} {p : Player} (ch : List Char)
    (hp : lookupA g.players sid = some p) (hl : p.lives = 0) :
    g.type_char sid ch = (g, .noop) := by
  unfold Game.type_char
  rw [hp]
  simp only [if_pos hl]

theorem tc_not_single {g : Game} {sid : String} {p : Player} {ch : List Char}
    (hp : lookupA g.players sid = some p) (hl : ¬ p.lives = 0)
    (hch : ∀ c, lowerList ch ≠ [c]) : g.type_char sid ch = (g, .noop) := by
  have hsplit : lowerList ch = [] ∨ ∃ c d rest, lowerList ch = c :: d :: rest := by
    cases hlc : lowerList ch with
    | nil => exact Or.inl rfl
    | cons c rest =>
      cases rest with
      | nil => exact absurd hlc (hch c)
      | cons d rest' => exact Or.inr ⟨c, d, rest', rfl⟩
  rcases hsplit with h | ⟨c, d, rest, h⟩
  · unfold Game.type_char
    rw [hp]
    simp only [if_neg hl, h]
  · unfold Game.type_char
    rw [hp]
    simp only [if_neg hl, h]

theorem tc_not_lower {g : Game} {sid : String} {p : Player} {ch : List Char} {c : Char}
    (hp : lookupA g.players sid = some p) (hl : ¬ p.lives = 0)
    (hch : lowerList ch = [c]) (hc : c.isLower = false) :
    g.type_char sid ch = (g, .noop) := by
  unfold Game.type_char
  rw [hp]
  simp only [if_neg hl]
  rw [hch]
  simp only [hc, Bool.false_eq_true, if_false]

theorem tc_scan_none {g : Game} {sid : String} {p : Player} {ch : List Char} {c : Char}
    (hp : lookupA g.players sid = some p) (hl : ¬ p.lives = 0)
    (hch : lowerList ch = [c]) (hc : c.isLower = true)
    (hcur : p.current_word_id = none) :
    g.type_char sid ch = g.scanBranch sid p c := by
  unfold Game.type_char
  rw [hp]
  simp only [if_neg hl]
  rw [hch]
  simp only [hc, if_true]
  rw [hcur]

theorem tc_scan_stale {g : Game} {sid : String} {p : Player} {ch : List Char} {c : Char}
    {wid : String}
    (hp : lookupA g.players sid = some p) (hl : ¬ p.lives = 0)
    (hch : lowerList ch = [c]) (hc : c.isLower = true)
    (hcur : p.current_word_id = some wid) (hw : lookupA g.words wid = none) :
    g.type_char sid ch = g.scanBranch sid p c := by
  unfold Game.type_char
  rw [hp]
  simp only [if_neg hl]
  rw [hch]
  simp only [hc, if_true]
  rw [hcur]
  simp only [hw]

theorem tc_mismatch {g : Game} {sid : String} {p : Player} {ch : List Char} {c : Char}
    {wid : String} {w : Word}
    (hp : lookupA g.players sid = some p) (hl : ¬ p.lives = 0)
    (hch : lowerList ch = [c]) (hc : c.isLower = true)
    (hcur : p.current_word_id = some wid) (hw : lookupA g.words wid = some w)
    (hmm : ¬ (w.owner_sid = some sid ∧ w.remaining.head? = some c)) :
    g.type_char sid ch =
      ({ g with players := updateA g.players sid { p with streak := 0 } }, .bad_key) := by
  unfold Game.type_char
  rw [hp]
  simp only [if_neg hl]
  rw [hch]
  simp only [hc, if_true]
  rw [hcur]
  simp only [hw]
  simp only [if_neg hmm]

theorem tc_accept_progress {g : Game} {sid : String} {p : Player} {ch : List Char}
    {c : Char} {wid : String} {w : Word}
    (hp : lookupA g.players sid = some p) (hl : ¬ p.lives = 0)
    (hch : lowerList ch = [c]) (hc : c.isLower = true)
    (hcur : p.current_word_id = some wid) (hw : lookupA g.words wid = some w)
    (hown : w.owner_sid = some sid) (hhead : w.remaining.head? = some c)
    (hne : ¬ w.remaining.tail.isEmpty = true) :
    g.type_char sid ch =
      ({ g with
          words := updateA g.words wid
            { w with typed := w.typed ++ [c], remaining := w.remaining.tail },
          players := updateA g.players sid
            { p with score := p.score + SCORE_PER_CHAR, streak := p.streak + 1 } },
        .progress) := by
  unfold Game.type_char
  rw [hp]
  simp only [if_neg hl]
  rw [hch]
  simp only [hc, if_true]
  rw [hcur]
  simp only [hw]
  simp only [if_pos (show w.owner_sid = some sid ∧ w.remaining.head? = some c
    from ⟨hown, hhead⟩)]
  simp only [if_neg hne]

theorem tc_accept_completed {g : Game} {sid : String} {p : Player} {ch : List Char}
    {c : Char} {wid : String} {w : Word}
    (hp : lookupA g.players sid = some p) (hl : ¬ p.lives = 0)
    (hch : lowerList ch = [c]) (hc : c.isLower = true)
    (hcur : p.current_word_id = some wid) (hw : lookupA g.words wid = some w)
    (hown : w.owner_sid = some sid) (hhead : w.remaining.head? = some c)
    (hem : w.remaining.tail.isEmpty = true) :
    g.type_char sid ch =
      (Game._despawn
        { g with
          words := updateA g.words wid
            { w with typed := w.typed ++ [c], remaining := w.remaining.tail,
                     status := .completed },
          players := updateA g.players sid
            { p with score := p.score + SCORE_PER_CHAR + WORD_BONUS,
                     streak := p.streak + 1, current_word_id := none } } w.id,
        .completed) := by
  unfold Game.type_char
  rw [hp]
  simp only [if_neg hl]
  rw [hch]
  simp only [hc, if_true]
  rw [hcur]
  simp only [hw]
  simp only [if_pos (show w.owner_sid = some sid ∧ w.remaining.head? = some c
    from ⟨hown, hhead⟩)]
  simp only [if_pos hem]


/-! ### The free-word scan -/

theorem lockScan_cons_hit {c : Char} {w : Word} (sid : String) (k : String)
    (t : List (String × Word)) (h : scanHit c w) :
    lockScan sid c ((k, w) :: t) =
      some ((k, lockedWord sid c w) :: t, lockedWord sid c w) := by
  unfold lockScan
  rw [if_pos (show w.status = .falling ∧ w.owner_sid = none ∧
    w.remaining.head? = some c from h)]
  rfl

theorem lockScan_cons_skip {c : Char} {w : Word} (sid : String) (k : String)
    (t : List (String × Word)) (h : ¬ scanHit c w) :
    lockScan sid c ((k, w) :: t) =
      match lockScan sid c t with
      | none => none
      | some (t', lw) => some ((k, w) :: t', lw) := by
  conv_lhs => unfold lockScan
  rw [if_neg (show ¬ (w.status = .falling ∧ w.owner_sid = none ∧
    w.remaining.head? = some c) from h)]

theorem lockScan_none_iff (sid : String) (c : Char) (ws : List (String × Word)) :
    lockScan sid c ws = none ↔ ∀ kw ∈ ws, ¬ scanHit c kw.2 := by
  induction ws with
  | nil => simp [lockScan]
  | cons hd t ih =>
    obtain ⟨k, w⟩ := hd
    by_cases h : scanHit c w
    · rw [lockScan_cons_hit sid k t h]
      simp only [List.mem_cons]
      constructor
      · intro hx
        cases hx
      · intro hx
        exact absurd h (hx (k, w) (Or.inl rfl))
    · rw [lockScan_cons_skip sid k t h]
      cases hs : lockScan sid c t with
      | none =>
        simp only [List.mem_cons]
        constructor
        · intro _ kw hkw
          rcases hkw with hkw | hkw
          · rw [hkw]
            exact h
          · exact (ih.mp hs) kw hkw
        · intro _
          trivial
      | some r =>
        obtain ⟨t', lw⟩ := r
        simp only [List.mem_cons]
        constructor
        · intro hx
          cases hx
        · intro hx
          have : lockScan sid c t = none := ih.mpr (fun kw hkw => hx kw (Or.inr hkw))
          rw [this] at hs
          cases hs

theorem lockScan_some_decomp {sid : String} {c : Char} {ws ws' : List (String × Word)}
    {lw : Word} (h : lockScan sid c ws = some (ws', lw)) :
    ∃ pre k0 w0 post, ws = pre ++ (k0, w0) :: post ∧
      ws' = pre ++ (k0, lockedWord sid c w0) :: post ∧
      lw = lockedWord sid c w0 ∧ scanHit c w0 ∧ ∀ kw ∈ pre, ¬ scanHit c kw.2 := by
  induction ws generalizing ws' lw with
  | nil => cases h
  | cons hd t ih =>
    obtain ⟨k, w⟩ := hd
    by_cases hh : scanHit c w
    · rw [lockScan_cons_hit sid k t hh] at h
      injection h with h1
      injection h1 with h2 h3
      refine ⟨[], k, w, t, by simp, by simp [h2.symm], h3.symm, hh, by simp⟩
    · rw [lockScan_cons_skip sid k t hh] at h
      cases hs : lockScan sid c t with
      | none =>
        rw [hs] at h
        cases h
      | some r =>
        obtain ⟨t', lw'⟩ := r
        rw [hs] at h
        injection h with h1
        injection h1 with h2 h3
        obtain ⟨pre, k0, w0, post, hws, hws', hlw, hhit, hpre⟩ := ih hs
        refine ⟨(k, w) :: pre, k0, w0, post, by simp [hws], ?_, ?_, hhit, ?_⟩
        · rw [← h2, hws']
          simp
        · rw [← h3, hlw]
        · intro kw hkw
          rcases List.mem_cons.mp hkw with hkw | hkw
          · rw [hkw]
            exact hh
          · exact hpre kw hkw

theorem lockScan_keys {sid : String} {c : Char} {ws ws' : List (String × Word)}
    {lw : Word} (h : lockScan sid c ws = some (ws', lw)) :
    ws'.map Prod.fst = ws.map Prod.fst := by
  obtain ⟨pre, k0, w0, post, hws, hws', _, _, _⟩ := lockScan_some_decomp h
  rw [hws, hws']
  simp

theorem scanBranch_none {g : Game} {sid : String} (p : Player) {c : Char}
    (h : lockScan sid c g.words = none) :
    g.scanBranch sid p c =
      ({ g with players := updateA g.players sid { p with streak := 0 } }, .bad_key) := by
  unfold Game.scanBranch
  rw [h]

theorem scanBranch_some {g : Game} {sid : String} (p : Player) {c : Char}
    {ws' : List (String × Word)} {lw : Word}
    (h : lockScan sid c g.words = some (ws', lw)) :
    g.scanBranch sid p c =
      ({ g with
          words := ws',
          players := updateA g.players sid { p with
            current_word_id := some lw.id,
            score := p.score + SCORE_PER_CHAR, streak := p.streak + 1 } },
        .progress) := by
  unfold Game.scanBranch
  rw [h]


/-! ### The full case analysis of type_char -/

/-- Full case analysis of one `type_char` call: either it is a no-op (and
why), or the player and letter are valid and the call falls in exactly one
of the four mutating branches, each with its complete state equation. -/
theorem type_char_inv (g : Game) (sid : String) (ch : List Char) :
    (g.type_char sid ch = (g, .noop) ∧
      (lookupA g.players sid = none ∨
        (∃ p, lookupA g.players sid = some p ∧ p.lives = 0) ∨
        (∀ c, lowerList ch = [c] → c.isLower = false))) ∨
    ∃ p c, lookupA g.players sid = some p ∧ p.lives ≠ 0 ∧ lowerList ch = [c] ∧
      c.isLower = true ∧
      ((∃ wid w, p.current_word_id = some wid ∧ lookupA g.words wid = some w ∧
          w.owner_sid = some sid ∧ w.remaining.head? = some c ∧
          w.remaining.tail.isEmpty = false ∧
          g.type_char sid ch = ({ g with
            words := updateA g.words wid
              { w with typed := w.typed ++ [c], remaining := w.remaining.tail },
            players := updateA g.players sid
              { p with score := p.score + SCORE_PER_CHAR, streak := p.streak + 1 } },
            .progress)) ∨
       (∃ wid w, p.current_word_id = some wid ∧ lookupA g.words wid = some w ∧
          w.owner_sid = some sid ∧ w.remaining.head? = some c ∧
          w.remaining.tail.isEmpty = true ∧
          g.type_char sid ch = (Game._despawn
            { g with
              words := updateA g.words wid
                { w with typed := w.typed ++ [c], remaining := w.remaining.tail,
                         status := .completed },
              players := updateA g.players sid
                { p with score := p.score + SCORE_PER_CHAR + WORD_BONUS,
                         streak := p.streak + 1, current_word_id := none } } w.id,
            .completed)) ∨
       (∃ wid w, p.current_word_id = some wid ∧ lookupA g.words wid = some w ∧
          ¬ (w.owner_sid = some sid ∧ w.remaining.head? = some c) ∧
          g.type_char sid ch =
            ({ g with players := updateA g.players sid { p with streak := 0 } },
              .bad_key)) ∨
       ((p.current_word_id = none ∨
          (∃ wid, p.current_word_id = some wid ∧ lookupA g.words wid = none)) ∧
         ((∃ ws' lw, lockScan sid c g.words = some (ws', lw) ∧
            g.type_char sid ch = ({ g with
              words := ws',
              players := updateA g.players sid { p with
                current_word_id := some lw.id,
                score := p.score + SCORE_PER_CHAR, streak := p.streak + 1 } },
              .progress)) ∨
          (lockScan sid c g.words = none ∧
            g.type_char sid ch =
              ({ g with players := updateA g.players sid { p with streak := 0 } },
                .bad_key))))) := by
  cases hp : lookupA g.players sid with
  | none => exact Or.inl ⟨tc_unknown ch hp, Or.inl rfl⟩
  | some p =>
    by_cases hl : p.lives = 0
    · exact Or.inl ⟨tc_dead ch hp hl, Or.inr (Or.inl ⟨p, rfl, hl⟩)⟩
    · cases hlc : lowerList ch with
      | nil =>
        refine Or.inl ⟨tc_not_single hp hl ?_, Or.inr (Or.inr ?_)⟩
        · intro c
          rw [hlc]
          simp
        · intro c h
          exact absurd h (by simp)
      | cons c rest =>
        cases rest with
        | nil =>
          by_cases hc : c.isLower = true
          · right
            refine ⟨p, c, rfl, hl, rfl, hc, ?_⟩
            cases hcur : p.current_word_id with
            | none =>
              have htc := tc_scan_none hp hl hlc hc hcur
              refine Or.inr (Or.inr (Or.inr ⟨Or.inl rfl, ?_⟩))
              cases hls : lockScan sid c g.words with
              | none =>
                exact Or.inr ⟨rfl, by rw [htc, scanBranch_none p hls, hcur]⟩
              | some r =>
                obtain ⟨ws', lw⟩ := r
                exact Or.inl ⟨ws', lw, rfl, by rw [htc, scanBranch_some p hls]⟩
            | some wid =>
              cases hw : lookupA g.words wid with
              | none =>
                have htc := tc_scan_stale hp hl hlc hc hcur hw
                refine Or.inr (Or.inr (Or.inr ⟨Or.inr ⟨wid, rfl, hw⟩, ?_⟩))
                cases hls : lockScan sid c g.words with
                | none =>
                  exact Or.inr ⟨rfl, by rw [htc, scanBranch_none p hls, hcur]⟩
                | some r =>
                  obtain ⟨ws', lw⟩ := r
                  exact Or.inl ⟨ws', lw, rfl, by rw [htc, scanBranch_some p hls]⟩
              | some w =>
                by_cases hcond : w.owner_sid = some sid ∧ w.remaining.head? = some c
                · by_cases hem : w.remaining.tail.isEmpty = true
                  · exact Or.inr (Or.inl ⟨wid, w, rfl, hw, hcond.1, hcond.2, hem,
                      by rw [tc_accept_completed hp hl hlc hc hcur hw hcond.1 hcond.2 hem]⟩)
                  · exact Or.inl ⟨wid, w, rfl, hw, hcond.1, hcond.2,
                      Bool.eq_false_iff.mpr hem,
                      by rw [tc_accept_progress hp hl hlc hc hcur hw hcond.1 hcond.2 hem, hcur]⟩
                · exact Or.inr (Or.inr (Or.inl ⟨wid, w, rfl, hw, hcond,
                    by rw [tc_mismatch hp hl hlc hc hcur hw hcond, hcur]⟩))
          · refine Or.inl ⟨tc_not_lower hp hl hlc (Bool.eq_false_iff.mpr hc),
              Or.inr (Or.inr ?_)⟩
            intro c' h
            injection h with h1 _
            rw [← h1]
            exact Bool.eq_false_iff.mpr hc
        | cons d rest' =>
          refine Or.inl ⟨tc_not_single hp hl ?_, Or.inr (Or.inr ?_)⟩
          · intro c'
            rw [hlc]
            simp
          · intro c' h
            simp at h


/-! ### Score monotonicity, noop conditions, wrong-key frame -/

theorem lookup_update_score {g : Game} {sid' : String} {q : Player}
    (hq : lookupA g.players sid' = some q) (q' : Player) (hs : q.score ≤ q'.score)
    {sid : String} {p : Player} (hp : lookupA g.players sid = some p) :
    ∃ p', lookupA (updateA g.players sid' q') sid = some p' ∧ p.score ≤ p'.score := by
  by_cases h : sid = sid'
  · subst h
    rw [hp] at hq
    injection hq with hq
    refine ⟨q', lookupA_updateA_self hp q', ?_⟩
    rw [hq]
    exact hs
  · exact ⟨p, by rw [lookupA_updateA_ne _ h]; exact hp, le_refl _⟩

theorem spawn_word_players {g g' : Game} {pick : Nat} {wid : String} {x r : ℚ}
    {w : Word} (h : g.spawn_word pick wid x r = some (g', w)) :
    g'.players = g.players := by
  unfold Game.spawn_word at h
  cases hct : g._choose_unique_text pick with
  | none =>
    rw [hct] at h
    cases h
  | some text =>
    rw [hct] at h
    injection h with h1
    injection h1 with h2 _
    rw [← h2]

theorem step_score_mono (g : Game) (op : Op) (sid : String) (p : Player)
    (hp : lookupA g.players sid = some p) :
    ∃ p', lookupA (g.step op).players sid = some p' ∧ p.score ≤ p'.score := by
  cases op with
  | tick =>
    refine ⟨missAll (missedIds g) p, ?_, le_refl _⟩
    show lookupA (Game.tick g).players sid = some (missAll (missedIds g) p)
    rw [tick_players_eq]
    have h := lookupA_map_val g.players (fun _ v => missAll (missedIds g) v) sid
    rw [hp] at h
    exact h
  | typeChar sid' ch =>
    have hstep : g.step (.typeChar sid' ch) = (g.type_char sid' ch).1 := rfl
    rcases type_char_inv g sid' ch with ⟨heq, _⟩ |
      ⟨q, c, hq, _, _, _,
        ⟨wid, w, _, _, _, _, _, heq⟩ | ⟨wid, w, _, _, _, _, _, heq⟩ |
        ⟨wid, w, _, _, _, heq⟩ | ⟨_, ⟨ws', lw, _, heq⟩ | ⟨_, heq⟩⟩⟩
    · rw [hstep, heq]
      exact ⟨p, hp, le_refl _⟩
    · rw [hstep, heq]
      exact lookup_update_score hq _ (by simp) hp
    · rw [hstep, heq]
      dsimp only
      rw [despawn_players]
      exact lookup_update_score hq _
        (le_trans (Nat.le_add_right _ _) (Nat.le_add_right _ _)) hp
    · rw [hstep, heq]
      exact lookup_update_score hq _ (by simp) hp
    · rw [hstep, heq]
      exact lookup_update_score hq _ (by simp) hp
    · rw [hstep, heq]
      exact lookup_update_score hq _ (by simp) hp
  | spawn pick wid x r =>
    show (∃ p', lookupA (match g.spawn_word pick wid x r with
      | some gw => gw.1
      | none => g).players sid = some p' ∧ p.score ≤ p'.score)
    cases hsw : g.spawn_word pick wid x r with
    | none => exact ⟨p, hp, le_refl _⟩
    | some gw =>
      obtain ⟨g', w⟩ := gw
      rw [spawn_word_players hsw]
      exact ⟨p, hp, le_refl _⟩

/-- C10: no operation ever decreases a player's score: across any
sequence of ticks, keystrokes and spawns, each player's score is
monotonically non-decreasing (misses cost lives and streak, never
score). -/
theorem C10_score_monotone (g0 : Game) (ops : List Op) (sid : String) (p : Player)
    (hp : lookupA g0.players sid = some p) :
    ∃ p', lookupA (ops.foldl Game.step g0).players sid = some p' ∧
      p.score ≤ p'.score := by
  induction ops generalizing g0 p with
  | nil => exact ⟨p, hp, le_refl _⟩
  | cons op ops ih =>
    obtain ⟨p1, hp1, hs1⟩ := step_score_mono g0 op sid p hp
    obtain ⟨p', hp', hs'⟩ := ih (g0.step op) p1 hp1
    exact ⟨p', by simpa using hp', le_trans hs1 hs'⟩

/-- C10, witness: two operations (a spawn and player 1 locking 'r') from
the two-player start leave player 1's score at least its initial 0. -/
theorem C10_score_monotone_witness :
    ∃ p', lookupA ([Op.spawn 0 widOne 100 0,
        Op.typeChar sidOne ['r']].foldl Game.step gTwo).players sidOne = some p' ∧
      ({ sid := sidOne, username := sidOne, color := (255, 120, 120), score := 0,
         lives := PLAYER_LIVES, streak := 0, current_word_id := none,
         ready := false } : Player).score ≤ p'.score :=
  C10_score_monotone gTwo [Op.spawn 0 widOne 100 0, Op.typeChar sidOne ['r']]
    sidOne _ rfl

/-- C4 (amended): `type_char` reports `noop` exactly when the player is
unknown, has zero lives, or the payload, AFTER the source's lowercasing,
is not a single ascii lowercase letter; and a `noop` leaves the whole
game state unchanged.  (The claim as frozen requires the raw payload to
be a lowercase letter; the code lowercases first, see the
counterexample.) -/
theorem C4_noop_iff (g : Game) (sid : String) (ch : List Char) :
    ((g.type_char sid ch).2 = .noop ↔
      (lookupA g.players sid = none ∨
        (∃ p, lookupA g.players sid = some p ∧ p.lives = 0) ∨
        (∀ c, lowerList ch = [c] → c.isLower = false))) ∧
    ((g.type_char sid ch).2 = .noop → (g.type_char sid ch).1 = g) := by
  rcases type_char_inv g sid ch with ⟨heq, hcond⟩ |
    ⟨p, c, hp, hl, hlc, hc,
      ⟨wid, w, h1, h2, h3, h4, h5, heq⟩ | ⟨wid, w, h1, h2, h3, h4, h5, heq⟩ |
      ⟨wid, w, h1, h2, h3, heq⟩ | ⟨hcur, ⟨ws', lw, hls, heq⟩ | ⟨hls, heq⟩⟩⟩
  · exact ⟨⟨fun _ => hcond, fun _ => by rw [heq]⟩, fun _ => by rw [heq]⟩
  all_goals {
    have hne : (g.type_char sid ch).2 ≠ .noop := by
      rw [heq]
      simp
    refine ⟨⟨fun h => absurd h hne, fun hcond => ?_⟩, fun h => absurd h hne⟩
    exfalso
    rcases hcond with h | ⟨p', hp', hl'⟩ | h
    · rw [hp] at h
      cases h
    · rw [hp] at hp'
      injection hp' with he
      rw [← he] at hl'
      exact hl hl'
    · exact Bool.false_ne_true ((h c hlc).symm.trans hc)
  }

/-- C4, counterexample to the claim as stated: the payload "A" is not a
single lowercase letter, the player is known with full lives, yet the
call is not a `noop` — the source lowercases before validating, so the
uppercase 'R' locks the spawned "rocket" and reports `progress`. -/
theorem C4_counterexample :
    (lookupA gSpawned.players sidOne).map Player.lives = some PLAYER_LIVES ∧
    ('R').isLower = false ∧
    (gSpawned.type_char sidOne ['R']).2 = .progress ∧
    (gSpawned.type_char sidOne ['R']).2 ≠ .noop := by
  exact ⟨by decide, by decide, by decide, by decide⟩

/-- C4, witness: the payload "!" (no lowercase form) is a `noop` and the
state is untouched. -/
theorem C4_noop_iff_witness :
    (gSpawned.type_char sidOne ['!']).2 = .noop ∧
    (gSpawned.type_char sidOne ['!']).1 = gSpawned := by
  have h := C4_noop_iff gSpawned sidOne ['!']
  have hcond : ∀ c, lowerList ['!'] = [c] → c.isLower = false := by
    intro c hcc
    have h2 : ('!' : Char) = c := by
      injection (show ['!'] = [c] from hcc)
    rw [← h2]
    decide
  have hnoop := h.1.mpr (Or.inr (Or.inr hcond))
  exact ⟨hnoop, h.2 hnoop⟩

/-- C6: a wrong letter on an owned locked word only resets the typist's
streak and reports `bad_key`; the word's fields, the ownership, and the
player's score, lives and current word are untouched. -/
theorem C6_wrong_key_frame (g : Game) (sid : String) (p : Player) (wid : String)
    (w : Word) (c r : Char) (rs : List Char)
    (hp : lookupA g.players sid = some p) (hl : p.lives ≠ 0)
    (hcur : p.current_word_id = some wid) (hw : lookupA g.words wid = some w)
    (hown : w.owner_sid = some sid) (hrem : w.remaining = r :: rs)
    (hc : c.isLower = true) (hlow : c.toLower = c) (hne : c ≠ r) :
    g.type_char sid [c] =
      ({ g with players := updateA g.players sid { p with streak := 0 } },
        .bad_key) ∧
    (g.type_char sid [c]).2 = .bad_key ∧
    lookupA (g.type_char sid [c]).1.words wid = some w ∧
    ∃ p', lookupA (g.type_char sid [c]).1.players sid = some p' ∧
      p'.streak = 0 ∧ p'.score = p.score ∧ p'.lives = p.lives ∧
      p'.current_word_id = some wid := by
  have hlc : lowerList [c] = [c] := by
    simp [lowerList, hlow]
  have hmm : ¬ (w.owner_sid = some sid ∧ w.remaining.head? = some c) := by
    intro hx
    have h3 : some r = some c := by
      rw [hrem] at hx
      exact hx.2
    injection h3 with h4
    exact hne h4.symm
  have heq := tc_mismatch hp hl hlc hc hcur hw hmm
  refine ⟨heq, by rw [heq], ?_, ?_⟩
  · rw [heq]
    exact hw
  · rw [heq]
    refine ⟨{ p with streak := 0 }, lookupA_updateA_self hp _, rfl, rfl, rfl, ?_⟩
    show p.current_word_id = some wid
    exact hcur

/-- C6, witness: in the locked fixture, player 1 typing 'x' (next letter
is 'o') reports `bad_key`. -/
theorem C6_wrong_key_frame_witness :
    (gLocked.type_char sidOne ['x']).2 = .bad_key :=
  (C6_wrong_key_frame gLocked sidOne _ widOne _ 'x' 'o' ['c', 'k', 'e', 't']
    rfl (by decide) rfl rfl rfl rfl (by decide) (by decide) (by decide)).2.1


/-! ### Well-formedness is preserved by every operation -/

theorem lookupA_of_mem_nodup {κ α : Type} [DecidableEq κ] {l : List (κ × α)}
    (h : (l.map Prod.fst).Nodup) {k : κ} {v : α} (hm : (k, v) ∈ l) :
    lookupA l k = some v := by
  induction l with
  | nil => cases hm
  | cons hd t ih =>
    obtain ⟨k0, v0⟩ := hd
    simp only [List.map_cons, List.nodup_cons] at h
    rcases List.mem_cons.mp hm with he | hm'
    · injection he with he1 he2
      subst he1
      subst he2
      simp [lookupA]
    · have hk : k0 ≠ k := by
        intro hx
        subst hx
        exact h.1 (List.mem_map.mpr ⟨(k0, v), hm', rfl⟩)
      simp only [lookupA, if_neg hk]
      exact ih h.2 hm'

theorem mem_missedIds {g : Game} {k : String} {w : Word}
    (hmem : (k, w) ∈ g.words) (hid : w.id = k) (hwm : willMiss w = true) :
    k ∈ missedIds g := by
  unfold missedIds
  refine List.mem_map.mpr ⟨(k, w), ?_, hid⟩
  exact List.mem_filter.mpr ⟨hmem, hwm⟩

theorem WordWF_tickOne {k : String} {w : Word} (h : WordWF k w)
    (hnm : willMiss w = false) : WordWF k (tickOne w) := by
  obtain ⟨hid, hst, hown, hcat, hfall⟩ := h
  have hs : ¬ (w.status = .completed ∨ w.status = .missed) := by
    rcases hst with h' | h' <;> rw [h'] <;> simp
  have hy : ¬ CANVAS_H - 120 ≤ w.y + w.speed := by
    rw [willMiss_active hs] at hnm
    exact of_decide_eq_false hnm
  rw [tickOne_fall hs hy]
  exact ⟨hid, hst, hown, hcat, hfall⟩

theorem WF_tick {g : Game} (h : g.WF) : (g.tick).WF := by
  obtain ⟨hnd, hwf⟩ := h
  have hndm : ((g.words.map (fun kw => (kw.1, tickOne kw.2))).map Prod.fst).Nodup := by
    have : (g.words.map (fun kw => (kw.1, tickOne kw.2))).map Prod.fst =
        g.words.map Prod.fst := by
      rw [List.map_map]
      rfl
    rw [this]
    exact hnd
  constructor
  · rw [tick_words_eq]
    exact nodup_keys_foldl_eraseA (missedIds g) _ hndm
  · intro k w' hl
    rw [tick_words_eq, lookupA_foldl_eraseA (missedIds g) _ hndm k] at hl
    by_cases hm : k ∈ missedIds g
    · rw [if_pos hm] at hl
      cases hl
    · rw [if_neg hm] at hl
      have h2 := lookupA_map_val g.words (fun _ v => tickOne v) k
      rw [h2] at hl
      cases hg : lookupA g.words k with
      | none =>
        rw [hg] at hl
        cases hl
      | some w =>
        rw [hg] at hl
        injection hl with hl
        rw [← hl]
        have hwfw := hwf k w hg
        refine WordWF_tickOne hwfw ?_
        cases hwm : willMiss w with
        | false => rfl
        | true =>
          exact absurd (mem_missedIds (lookupA_mem hg) hwfw.1 hwm) hm

theorem WF_type_char {g : Game} (h : g.WF) (sid : String) (ch : List Char) :
    ((g.type_char sid ch).1).WF := by
  obtain ⟨hnd, hwf⟩ := h
  rcases type_char_inv g sid ch with ⟨heq, _⟩ |
    ⟨p, c, hp, hl, hlc, hc,
      ⟨wid, w, h1, h2, h3, h4, h5, heq⟩ | ⟨wid, w, h1, h2, h3, h4, h5, heq⟩ |
      ⟨wid, w, h1, h2, h3, heq⟩ | ⟨hcur, ⟨ws', lw, hls, heq⟩ | ⟨hls, heq⟩⟩⟩
  · rw [heq]
    exact ⟨hnd, hwf⟩
  · -- progress on the current word
    rw [heq]
    constructor
    · show ((updateA g.words wid _).map Prod.fst).Nodup
      rw [keys_updateA]
      exact hnd
    · intro k w' hlk
      by_cases hk : k = wid
      · subst hk
        rw [lookupA_updateA_self h2] at hlk
        injection hlk with hlk
        rw [← hlk]
        obtain ⟨hid, hst, hown, hcat, hfall⟩ := hwf k w h2
        have hnf : ¬ w.status = .falling := by
          intro hx
          rw [h3] at hown
          have := hown.mpr hx
          cases this
        refine ⟨hid, hst, ?_, ?_, ?_⟩
        · show w.owner_sid = none ↔ w.status = .falling
          exact hown
        · show w.typed ++ [c] ++ w.remaining.tail = w.text
          rw [← hcat, List.append_assoc]
          congr 1
          show [c] ++ w.remaining.tail = w.remaining
          have := List.cons_head?_tail h4
          simpa using this
        · intro hx
          exact absurd hx hnf
      · rw [lookupA_updateA_ne _ hk] at hlk
        exact hwf k w' hlk
  · -- completion: update then despawn
    rw [heq]
    dsimp only
    have hid : w.id = wid := (hwf wid w h2).1
    have hndu : ((updateA g.words wid
        { w with typed := w.typed ++ [c], remaining := w.remaining.tail,
                 status := .completed }).map Prod.fst).Nodup := by
      rw [keys_updateA]
      exact hnd
    constructor
    · rw [despawn_words]
      exact nodup_keys_eraseA hndu w.id
    · intro k w' hlk
      rw [despawn_words] at hlk
      by_cases hk : k = w.id
      · subst hk
        rw [lookupA_eraseA_self hndu] at hlk
        cases hlk
      · rw [lookupA_eraseA_ne _ hk] at hlk
        rw [hid] at hk
        rw [lookupA_updateA_ne _ hk] at hlk
        exact hwf k w' hlk
  · -- wrong key
    rw [heq]
    exact ⟨hnd, hwf⟩
  · -- scan lock acquired
    rw [heq]
    constructor
    · show (ws'.map Prod.fst).Nodup
      rw [lockScan_keys hls]
      exact hnd
    · intro k w' hlk
      have hmem := lookupA_mem hlk
      obtain ⟨pre, k0, w0, post, hws, hws', hlw, hhit, hpre⟩ := lockScan_some_decomp hls
      rw [hws'] at hmem
      have hcase : (k, w') ∈ g.words ∨ (k = k0 ∧ w' = lockedWord sid c w0) := by
        rcases List.mem_append.mp hmem with hm | hm
        · left
          rw [hws]
          exact List.mem_append.mpr (Or.inl hm)
        · rcases List.mem_cons.mp hm with hm | hm
          · right
            injection hm with hm1 hm2
            exact ⟨hm1, hm2⟩
          · left
            rw [hws]
            exact List.mem_append.mpr (Or.inr (List.mem_cons.mpr (Or.inr hm)))
      rcases hcase with hm | ⟨hk, hw'⟩
      · exact hwf k w' (lookupA_of_mem_nodup hnd hm)
      · subst hk
        subst hw'
        have hm0 : (k, w0) ∈ g.words := by
          rw [hws]
          exact List.mem_append.mpr (Or.inr (List.mem_cons.mpr (Or.inl rfl)))
        obtain ⟨hid, hst, hown, hcat, hfall⟩ := hwf k w0 (lookupA_of_mem_nodup hnd hm0)
        obtain ⟨hfal, hnone, hhead⟩ := hhit
        refine ⟨hid, Or.inr rfl, ?_, ?_, ?_⟩
        · show some sid = none ↔ WStatus.locked = WStatus.falling
          constructor
          · intro hx
            cases hx
          · intro hx
            cases hx
        · show [c] ++ w0.remaining.tail = w0.text
          have htext : w0.remaining = w0.text := by
            rw [← hcat, hfall hfal]
            rfl
          rw [← htext]
          have := List.cons_head?_tail hhead
          simpa using this
        · intro hx
          cases hx
  · -- scan found nothing
    rw [heq]
    exact ⟨hnd, hwf⟩

theorem WF_spawn {g : Game} (h : g.WF) (pick : Nat) (wid : String) (x r : ℚ) :
    (g.step (.spawn pick wid x r)).WF := by
  obtain ⟨hnd, hwf⟩ := h
  show Game.WF (match g.spawn_word pick wid x r with
    | some gw => gw.1
    | none => g)
  cases hsw : g.spawn_word pick wid x r with
  | none => exact ⟨hnd, hwf⟩
  | some gw =>
    obtain ⟨g', w⟩ := gw
    unfold Game.spawn_word at hsw
    cases hct : g._choose_unique_text pick with
    | none =>
      rw [hct] at hsw
      cases hsw
    | some text =>
      rw [hct] at hsw
      injection hsw with hsw
      injection hsw with hg' hw
      rw [← hg']
      constructor
      · show ((insertA g.words wid _).map Prod.fst).Nodup
        exact nodup_keys_insertA hnd wid _
      · intro k w' hlk
        by_cases hk : k = wid
        · subst hk
          rw [lookupA_insertA_self] at hlk
          injection hlk with hlk
          rw [← hlk]
          exact ⟨rfl, Or.inl rfl, by simp, rfl, fun _ => rfl⟩
        · rw [lookupA_insertA_ne _ hk] at hlk
          exact hwf k w' hlk

theorem WF_step {g : Game} (h : g.WF) (op : Op) : (g.step op).WF := by
  cases op with
  | tick => exact WF_tick h
  | typeChar sid ch => exact WF_type_char h sid ch
  | spawn pick wid x r => exact WF_spawn h pick wid x r

theorem WF_reachable {g0 g : Game} (h0 : g0.WF) (hr : Reachable g0 g) : g.WF := by
  induction hr with
  | refl => exact h0
  | step g' op _ ih => exact WF_step ih op

theorem lookupA_mid_ne {pre post : List (String × Word)} {k0 : String}
    {w0 w1 : Word} {k : String} (h : k ≠ k0) :
    lookupA (pre ++ (k0, w0) :: post) k = lookupA (pre ++ (k0, w1) :: post) k := by
  rw [lookupA_append, lookupA_append]
  cases lookupA pre k with
  | none =>
    have hk : ¬ k0 = k := fun he => h he.symm
    simp [lookupA, hk]
  | some v => rfl

theorem lookupA_mid_self {pre post : List (String × Word)} {k0 : String} {w0 : Word}
    (hnd : ((pre ++ (k0, w0) :: post).map Prod.fst).Nodup) :
    lookupA (pre ++ (k0, w0) :: post) k0 = some w0 := by
  have hpre : lookupA pre k0 = none := by
    rw [lookupA_none_iff]
    intro hmem
    rw [List.map_append] at hnd
    have := (List.nodup_append.mp hnd).2.2
    exact this hmem (by simp)
  rw [lookupA_append_of_none hpre]
  simp [lookupA]

/-- C8: at every reachable state, every active word's typed prefix and
remaining suffix concatenate to its text, and a still-falling word has
nothing typed (so its remaining suffix is the whole text, as spawned). -/
theorem C8_typed_remaining_invariant (g0 g : Game) (h0 : g0.WF)
    (hr : Reachable g0 g) :
    ∀ k w, lookupA g.words k = some w →
      w.typed ++ w.remaining = w.text ∧
      (w.status = .falling → w.typed = [] ∧ w.remaining = w.text) := by
  intro k w hl
  obtain ⟨_, _, _, hcat, hfall⟩ := (WF_reachable h0 hr).2 k w hl
  refine ⟨hcat, fun hf => ⟨hfall hf, ?_⟩⟩
  rw [← hcat, hfall hf]
  rfl

/-- C8, witness: the invariant instantiated on the concrete reachable
state where "rocket" is spawned and player 1 has locked it — a state
whose word dict is non-empty, so the instantiation is not vacuous. -/
theorem C8_typed_remaining_invariant_witness :
    (∀ k w, lookupA gLocked.words k = some w →
      w.typed ++ w.remaining = w.text ∧
      (w.status = .falling → w.typed = [] ∧ w.remaining = w.text)) ∧
    (lookupA gLocked.words widOne).isSome = true :=
  ⟨C8_typed_remaining_invariant gTwo gLocked
    ⟨by simp [gTwo, Game.addPlayer, Game.init], fun k w h => by cases h⟩
    (Reachable.step gSpawned (.typeChar sidOne ['r'])
      (Reachable.step gTwo (.spawn 0 widOne 100 0) Reachable.refl)),
    by decide⟩

/-- C7: under a tick or a keystroke, a word id absent from the active set
stays absent, and a word present before and after either keeps its status
or moves falling → locked; active statuses are only ever falling or
locked (completed/missed words leave the set within the same operation),
so no word ever leaves completed/missed or returns to falling. -/
theorem C7_status_monotone (g : Game) (hWF : g.WF) (op : Op)
    (hop : op = Op.tick ∨ ∃ sid ch, op = Op.typeChar sid ch) :
    (∀ k, lookupA g.words k = none → lookupA (g.step op).words k = none) ∧
    (∀ k w w', lookupA g.words k = some w → lookupA (g.step op).words k = some w' →
      (w'.status = w.status ∨ (w.status = .falling ∧ w'.status = .locked))) := by
  obtain ⟨hnd, hwf⟩ := hWF
  have hndm : ((g.words.map (fun kw => (kw.1, tickOne kw.2))).map Prod.fst).Nodup := by
    have he : (g.words.map (fun kw => (kw.1, tickOne kw.2))).map Prod.fst =
        g.words.map Prod.fst := by
      rw [List.map_map]
      rfl
    rw [he]
    exact hnd
  rcases hop with hop | ⟨sid, ch, hop⟩
  · subst hop
    constructor
    · intro k hk
      show lookupA (g.tick).words k = none
      rw [tick_words_eq, lookupA_foldl_eraseA (missedIds g) _ hndm k]
      have h2 := lookupA_map_val g.words (fun _ v => tickOne v) k
      rw [h2, hk]
      simp
    · intro k w w' hk hk'
      show _ ∨ _
      rw [show Game.step g Op.tick = g.tick from rfl] at hk'
      rw [tick_words_eq, lookupA_foldl_eraseA (missedIds g) _ hndm k] at hk'
      by_cases hm : k ∈ missedIds g
      · rw [if_pos hm] at hk'
        cases hk'
      · rw [if_neg hm] at hk'
        have h2 := lookupA_map_val g.words (fun _ v => tickOne v) k
        rw [h2, hk] at hk'
        injection hk' with hk'
        have hwfw := hwf k w hk
        have hnm : willMiss w = false := by
          cases hwm : willMiss w with
          | false => rfl
          | true => exact absurd (mem_missedIds (lookupA_mem hk) hwfw.1 hwm) hm
        have hs : ¬ (w.status = .completed ∨ w.status = .missed) := by
          rcases hwfw.2.1 with h' | h' <;> rw [h'] <;> simp
        have hy : ¬ CANVAS_H - 120 ≤ w.y + w.speed := by
          rw [willMiss_active hs] at hnm
          exact of_decide_eq_false hnm
        have hk'' : tickOne w = w' := hk'
        rw [← hk'', tickOne_fall hs hy]
        exact Or.inl rfl
  · subst hop
    have hstep : g.step (.typeChar sid ch) = (g.type_char sid ch).1 := rfl
    rcases type_char_inv g sid ch with ⟨heq, _⟩ |
      ⟨p, c, hp, hl, hlc, hc,
        ⟨wid, w0, h1, h2, h3, h4, h5, heq⟩ | ⟨wid, w0, h1, h2, h3, h4, h5, heq⟩ |
        ⟨wid, w0, h1, h2, h3, heq⟩ | ⟨hcur, ⟨ws', lw, hls, heq⟩ | ⟨hls, heq⟩⟩⟩
    · rw [hstep, heq]
      exact ⟨fun k hk => hk, fun k w w' hk hk' => by
        rw [hk] at hk'
        injection hk' with hk'
        exact Or.inl (by rw [hk'])⟩
    · -- progress on the current word: status untouched
      rw [hstep, heq]
      constructor
      · intro k hk
        have hkne : k ≠ wid := by
          intro hx
          rw [hx, h2] at hk
          cases hk
        dsimp only
        rw [lookupA_updateA_ne _ hkne]
        exact hk
      · intro k w w' hk hk'
        by_cases hkw : k = wid
        · subst hkw
          rw [h2] at hk
          injection hk with hk
          rw [lookupA_updateA_self h2] at hk'
          injection hk' with hk'
          rw [← hk, ← hk']
          exact Or.inl rfl
        · rw [lookupA_updateA_ne _ hkw] at hk'
          rw [hk] at hk'
          injection hk' with hk'
          exact Or.inl (by rw [hk'])
    · -- completion: the word leaves the set, others untouched
      rw [hstep, heq]
      have hid : w0.id = wid := (hwf wid w0 h2).1
      have hndu : ((updateA g.words wid { w0 with
          typed := w0.typed ++ [c],
          remaining := w0.remaining.tail, status := .completed }).map Prod.fst).Nodup := by
        rw [keys_updateA]
        exact hnd
      constructor
      · intro k hk
        have hkne : k ≠ wid := by
          intro hx
          rw [hx, h2] at hk
          cases hk
        dsimp only
        rw [despawn_words, hid, lookupA_eraseA_ne _ hkne, lookupA_updateA_ne _ hkne]
        exact hk
      · intro k w w' hk hk'
        dsimp only at hk'
        rw [despawn_words] at hk'
        by_cases hkw : k = wid
        · subst hkw
          nth_rewrite 2 [hid] at hk'
          rw [lookupA_eraseA_self hndu] at hk'
          cases hk'
        · rw [hid, lookupA_eraseA_ne _ hkw, lookupA_updateA_ne _ hkw] at hk'
          rw [hk] at hk'
          injection hk' with hk'
          exact Or.inl (by rw [hk'])
    · -- wrong key: words untouched
      rw [hstep, heq]
      exact ⟨fun k hk => hk, fun k w w' hk hk' => by
        rw [hk] at hk'
        injection hk' with hk'
        exact Or.inl (by rw [hk'])⟩
    · -- scan lock: one falling word becomes locked
      rw [hstep, heq]
      obtain ⟨pre, k0, w0', post, hws, hws', hlw, hhit, hpre⟩ := lockScan_some_decomp hls
      constructor
      · intro k hk
        show lookupA ws' k = none
        rw [lookupA_none_iff] at hk ⊢
        rw [lockScan_keys hls]
        exact hk
      · intro k w w' hk hk'
        by_cases hkw : k = k0
        · subst hkw
          rw [hws] at hnd hk
          rw [hws'] at hk'
          rw [lookupA_mid_self hnd] at hk
          rw [lookupA_mid_self (by rw [show (pre ++ (k, lockedWord sid c w0') :: post).map
            Prod.fst = (pre ++ (k, w0') :: post).map Prod.fst by simp]; exact hnd)] at hk'
          injection hk with hk
          injection hk' with hk'
          rw [← hk, ← hk']
          right
          exact ⟨hhit.1, rfl⟩
        · rw [hws] at hk
          rw [hws', ← lookupA_mid_ne hkw] at hk'
          rw [hk] at hk'
          injection hk' with hk'
          exact Or.inl (by rw [hk'])
    · -- scan miss: words untouched
      rw [hstep, heq]
      exact ⟨fun k hk => hk, fun k w w' hk hk' => by
        rw [hk] at hk'
        injection hk' with hk'
        exact Or.inl (by rw [hk'])⟩

/-- C7, witness: the lock acquisition step on the spawned "rocket" is the
falling → locked transition, and absent ids stay absent. -/
theorem C7_status_monotone_witness :
    (∀ k, lookupA gSpawned.words k = none →
      lookupA (gSpawned.step (.typeChar sidOne ['r'])).words k = none) ∧
    (∀ k w w', lookupA gSpawned.words k = some w →
      lookupA (gSpawned.step (.typeChar sidOne ['r'])).words k = some w' →
      (w'.status = w.status ∨ (w.status = .falling ∧ w'.status = .locked))) :=
  C7_status_monotone gSpawned
    (WF_step ⟨by simp [gTwo, Game.addPlayer, Game.init],
      fun k w h => by cases h⟩ (.spawn 0 widOne 100 0))
    (.typeChar sidOne ['r']) (Or.inr ⟨sidOne, ['r'], rfl⟩)

/-- C5: ownership is exclusive. At every state reachable from a
well-formed start, an active word's owner is set exactly when its status
is locked (completed words leave the active dict at once, so "locked or
completed" collapses to "locked" over active words); a keystroke from
any player other than the owner never touches an owned word, since the
current-word branch requires ownership and the lock scan only considers
unowned falling words; and concretely, after player 1 locks "rocket",
player 2 typing 'r' gets bad_key and the word still belongs to
player 1. -/
theorem C5_exclusive_ownership (g0 g : Game) (h0 : g0.WF) (hr : Reachable g0 g) :
    (∀ k w, lookupA g.words k = some w → (w.owner_sid ≠ none ↔ w.status = .locked)) ∧
    (∀ sid ch k w o, lookupA g.words k = some w → w.owner_sid = some o →
      o ≠ sid → lookupA (g.type_char sid ch).1.words k = some w) ∧
    ((gLocked.type_char sidTwo ['r']).2 = .bad_key ∧
      (lookupA (gLocked.type_char sidTwo ['r']).1.words widOne).map
        Word.owner_sid = some (some sidOne)) := by
  have hWF := WF_reachable h0 hr
  refine ⟨?_, ?_, by decide, by decide⟩
  · intro k w hk
    obtain ⟨-, hst, hiff, -, -⟩ := hWF.2 k w hk
    constructor
    · intro hno
      rcases hst with h | h
      · exact absurd (hiff.mpr h) hno
      · exact h
    · intro hlk hnone
      have hf := hiff.mp hnone
      rw [hf] at hlk
      cases hlk
  · intro sid ch k w o hk ho hos
    rcases type_char_inv g sid ch with ⟨heq, -⟩ |
      ⟨p, c, hp, hl, hlc, hc,
        ⟨wid, w0, h1, h2, hown, hhead, htail, heq⟩ |
        ⟨wid, w0, h1, h2, hown, hhead, htail, heq⟩ |
        ⟨wid, w0, h1, h2, h3, heq⟩ | ⟨hcur, ⟨ws', lw, hls, heq⟩ | ⟨hls, heq⟩⟩⟩
    · rw [heq]
      exact hk
    · -- progress: the mutated word is owned by the typist, hence k ≠ wid
      rw [heq]
      dsimp only
      have hkne : k ≠ wid := by
        intro he
        rw [he, h2] at hk
        injection hk with hk
        rw [← hk, hown] at ho
        injection ho with ho
        exact hos ho.symm
      rw [lookupA_updateA_ne _ hkne]
      exact hk
    · -- completion: same reasoning, plus the despawn of the typist's word
      rw [heq]
      dsimp only
      have hkne : k ≠ wid := by
        intro he
        rw [he, h2] at hk
        injection hk with hk
        rw [← hk, hown] at ho
        injection ho with ho
        exact hos ho.symm
      have hid : w0.id = wid := (hWF.2 wid w0 h2).1
      rw [despawn_words, hid, lookupA_eraseA_ne _ hkne, lookupA_updateA_ne _ hkne]
      exact hk
    · rw [heq]
      exact hk
    · -- scan lock: the locked word was unowned, hence k is not its id
      rw [heq]
      dsimp only
      obtain ⟨pre, k0, w0', post, hws, hws', hlw, hhit, hpre⟩ := lockScan_some_decomp hls
      by_cases hkw : k = k0
      · exfalso
        have hnd := hWF.1
        rw [hws] at hnd
        rw [hkw, hws, lookupA_mid_self hnd] at hk
        injection hk with hk
        rw [← hk, hhit.2.1] at ho
        cases ho
      · rw [hws', ← lookupA_mid_ne hkw, ← hws]
        exact hk
    · rw [heq]
      exact hk

/-- C5, witness: the ownership facts instantiated at the two-player
room with "rocket" freshly spawned. -/
theorem C5_exclusive_ownership_witness :
    (∀ k w, lookupA gSpawned.words k = some w →
      (w.owner_sid ≠ none ↔ w.status = .locked)) ∧
    (∀ sid ch k w o, lookupA gSpawned.words k = some w → w.owner_sid = some o →
      o ≠ sid → lookupA (gSpawned.type_char sid ch).1.words k = some w) ∧
    ((gLocked.type_char sidTwo ['r']).2 = .bad_key ∧
      (lookupA (gLocked.type_char sidTwo ['r']).1.words widOne).map
        Word.owner_sid = some (some sidOne)) :=
  C5_exclusive_ownership gTwo gSpawned
    ⟨by simp [gTwo, Game.addPlayer, Game.init], fun k w h => by cases h⟩
    (Reachable.step gTwo (.spawn 0 widOne 100 0) Reachable.refl)

theorem typeRun_locked (sid wid : String) (rs : List Char) :
    ∀ (g : Game) (p : Player) (w : Word) (r : Char),
    lookupA g.players sid = some p → ¬ p.lives = 0 →
    p.current_word_id = some wid → g.words = [(wid, w)] →
    w.owner_sid = some sid →
    w.remaining = r :: rs → lowerList (r :: rs) = r :: rs →
    (∀ x ∈ r :: rs, x.isLower = true) →
    (typeRun sid g (r :: rs)).2 = List.replicate rs.length .progress ++ [.completed] ∧
    (lookupA (typeRun sid g (r :: rs)).1.players sid).map Player.score =
      some (p.score + SCORE_PER_CHAR * (rs.length + 1) + WORD_BONUS) := by
  induction rs with
  | nil =>
    intro g p w r hp hl hcur hws hown hrem hlowl hlow
    have hw : lookupA g.words wid = some w := by rw [hws]; simp [lookupA]
    have hhead : w.remaining.head? = some r := by rw [hrem]; rfl
    have hem : w.remaining.tail.isEmpty = true := by rw [hrem]; rfl
    simp only [List.map_cons, List.map_nil, lowerList] at hlowl
    have hch : lowerList [r] = [r] := by
      simp only [lowerList, List.map_cons, List.map_nil]
      rw [List.cons.injEq] at hlowl
      rw [hlowl.1]
    have hc : r.isLower = true := hlow r (by simp)
    have heq := tc_accept_completed hp hl hch hc hcur hw hown hhead hem
    have hrun : typeRun sid g [r] =
        ((g.type_char sid [r]).1, [(g.type_char sid [r]).2]) := rfl
    rw [hrun, heq]
    refine ⟨rfl, ?_⟩
    rw [despawn_players]
    dsimp only
    rw [lookupA_updateA_self hp]
    rw [Option.map_some']
    refine congrArg some ?_
    show p.score + SCORE_PER_CHAR + WORD_BONUS =
      p.score + SCORE_PER_CHAR * (0 + 1) + WORD_BONUS
    omega
  | cons d rs' ih =>
    intro g p w r hp hl hcur hws hown hrem hlowl hlow
    have hw : lookupA g.words wid = some w := by rw [hws]; simp [lookupA]
    have hhead : w.remaining.head? = some r := by rw [hrem]; rfl
    have hem : ¬ w.remaining.tail.isEmpty = true := by rw [hrem]; simp
    simp only [lowerList, List.map_cons] at hlowl
    rw [List.cons.injEq] at hlowl
    have hch : lowerList [r] = [r] := by
      simp only [lowerList, List.map_cons, List.map_nil]
      rw [hlowl.1]
    have hc : r.isLower = true := hlow r (by simp)
    have heq := tc_accept_progress hp hl hch hc hcur hw hown hhead hem
    have hrun : typeRun sid g (r :: d :: rs') =
        ((typeRun sid (g.type_char sid [r]).1 (d :: rs')).1,
          (g.type_char sid [r]).2 ::
            (typeRun sid (g.type_char sid [r]).1 (d :: rs')).2) := rfl
    rw [hrun, heq]
    dsimp only
    have hws1 : updateA g.words wid
        { w with typed := w.typed ++ [r], remaining := w.remaining.tail } =
        [(wid, { w with typed := w.typed ++ [r], remaining := w.remaining.tail })] := by
      rw [hws]
      simp [updateA]
    obtain ⟨hout, hscr⟩ := ih
      { g with
        words := updateA g.words wid
          { w with typed := w.typed ++ [r], remaining := w.remaining.tail },
        players := updateA g.players sid
          { p with score := p.score + SCORE_PER_CHAR, streak := p.streak + 1 } }
      { p with score := p.score + SCORE_PER_CHAR, streak := p.streak + 1 }
      { w with typed := w.typed ++ [r], remaining := w.remaining.tail }
      d
      (lookupA_updateA_self hp _) (by simpa using hl) hcur hws1 hown
      (by dsimp only; rw [hrem]; rfl)
      (by simp only [lowerList, List.map_cons]; rw [hlowl.2])
      (fun x hx => hlow x (by simp at hx ⊢; tauto))
    constructor
    · rw [hout]
      simp [List.replicate_succ]
    · rw [hscr]
      dsimp only
      refine congrArg some ?_
      simp only [SCORE_PER_CHAR, WORD_BONUS, List.length_cons]
      omega

/-- C2: the per-character and completion bonuses add up — for any word
of length at least two.  Starting with a single fresh falling word of
text `c :: d :: cs` and a live player with no current word, typing the
full text yields one `progress` per non-final character (the lock
included) and a final `completed`, and raises the player's score by
exactly `SCORE_PER_CHAR * length + WORD_BONUS`.  The length-one case the
original claim also covers is refuted by `C2_counterexample`: the
scan-lock branch never checks for completion, so a one-letter word
yields a lone `progress`, scores only `SCORE_PER_CHAR`, and can never be
completed. -/
theorem C2_complete_word_score (g : Game) (sid wid : String) (p : Player) (w : Word)
    (c d : Char) (cs : List Char)
    (hp : lookupA g.players sid = some p) (hl : ¬ p.lives = 0)
    (hcur : p.current_word_id = none)
    (hws : g.words = [(wid, w)])
    (hst : w.status = .falling) (hown : w.owner_sid = none)
    (hid : w.id = wid)
    (hrem : w.remaining = c :: d :: cs)
    (hlowl : lowerList (c :: d :: cs) = c :: d :: cs)
    (hlow : ∀ x ∈ c :: d :: cs, x.isLower = true) :
    (typeRun sid g (c :: d :: cs)).2 =
      List.replicate (d :: cs).length .progress ++ [.completed] ∧
    (lookupA (typeRun sid g (c :: d :: cs)).1.players sid).map Player.score =
      some (p.score + SCORE_PER_CHAR * (c :: d :: cs).length + WORD_BONUS) := by
  simp only [lowerList, List.map_cons] at hlowl
  rw [List.cons.injEq] at hlowl
  have hch : lowerList [c] = [c] := by
    simp only [lowerList, List.map_cons, List.map_nil]
    rw [hlowl.1]
  have hc : c.isLower = true := hlow c (by simp)
  have hhit : scanHit c w := ⟨hst, hown, by rw [hrem]; rfl⟩
  have hls : lockScan sid c g.words =
      some ([(wid, lockedWord sid c w)], lockedWord sid c w) := by
    rw [hws]
    exact lockScan_cons_hit sid wid [] hhit
  have heq : g.type_char sid [c] =
      ({ g with
          words := [(wid, lockedWord sid c w)],
          players := updateA g.players sid { p with
            current_word_id := some (lockedWord sid c w).id,
            score := p.score + SCORE_PER_CHAR, streak := p.streak + 1 } },
        .progress) := by
    rw [tc_scan_none hp hl hch hc hcur]
    exact scanBranch_some p hls
  have hrun : typeRun sid g (c :: d :: cs) =
      ((typeRun sid (g.type_char sid [c]).1 (d :: cs)).1,
        (g.type_char sid [c]).2 ::
          (typeRun sid (g.type_char sid [c]).1 (d :: cs)).2) := rfl
  rw [hrun, heq]
  dsimp only
  obtain ⟨hout, hscr⟩ := typeRun_locked sid wid cs
    { g with
      words := [(wid, lockedWord sid c w)],
      players := updateA g.players sid { p with
        current_word_id := some (lockedWord sid c w).id,
        score := p.score + SCORE_PER_CHAR, streak := p.streak + 1 } }
    { p with
      current_word_id := some (lockedWord sid c w).id,
      score := p.score + SCORE_PER_CHAR, streak := p.streak + 1 }
    (lockedWord sid c w) d
    (lookupA_updateA_self hp _) (by simpa using hl)
    (by dsimp only; rw [show (lockedWord sid c w).id = wid from hid])
    rfl rfl
    (by show w.remaining.tail = d :: cs; rw [hrem]; rfl)
    (by simp only [lowerList, List.map_cons]; rw [hlowl.2])
    (fun x hx => hlow x (by simp at hx ⊢; tauto))
  constructor
  · rw [hout]
    simp [List.replicate_succ]
  · rw [hscr]
    dsimp only
    refine congrArg some ?_
    simp only [SCORE_PER_CHAR, WORD_BONUS, List.length_cons]
    omega

/-- C2, counterexample: for a one-letter word the claim fails.  In the
room over the bank ["a"] with "a" spawned, typing the whole text "a"
returns a single `progress` (the scan-lock branch never reports
completion), and the score ends at `SCORE_PER_CHAR = 5`, not the claimed
`SCORE_PER_CHAR * 1 + WORD_BONUS = 15`. -/
theorem C2_counterexample :
    (typeRun sidOne gOneLetter textA).2 = [.progress] ∧
    (lookupA (typeRun sidOne gOneLetter textA).1.players sidOne).map Player.score =
      some SCORE_PER_CHAR ∧
    SCORE_PER_CHAR ≠ SCORE_PER_CHAR * textA.length + WORD_BONUS :=
  ⟨by decide, by decide, by decide⟩

/-- C2, witness: typing the six-letter "rocket" in full — lock on 'r',
then "ocket" — gives five `progress` results, one `completed`, and a
final score of `5 × 6 + 10 = 40`. -/
theorem C2_complete_word_score_witness :
    (typeRun sidOne gNear ('r' :: 'o' :: ['c', 'k', 'e', 't'])).2 =
      List.replicate (('o' :: ['c', 'k', 'e', 't']).length) .progress ++ [.completed] ∧
    (lookupA (typeRun sidOne gNear
        ('r' :: 'o' :: ['c', 'k', 'e', 't'])).1.players sidOne).map Player.score =
      some (0 + SCORE_PER_CHAR * ('r' :: 'o' :: ['c', 'k', 'e', 't']).length +
        WORD_BONUS) :=
  C2_complete_word_score gNear sidOne widOne
    { sid := sidOne, username := sidOne, color := (255, 120, 120), score := 0,
      lives := PLAYER_LIVES, streak := 0, current_word_id := none, ready := false }
    wNear 'r' 'o' ['c', 'k', 'e', 't']
    (by decide) (by decide) rfl rfl rfl rfl rfl rfl
    (by decide) (by decide)

/-- C3: on a tick, a word crossing the miss line transitions to missed
and is removed from the active dict; words not crossing just fall; and
every player in the room — owner or not — loses `MISS_LIFE_PENALTY`
lives per missed word (truncated at zero), has the streak reset as soon
as one word missed, and has their current word released if it is among
the missed ids. -/
theorem C3_tick_miss (g : Game) (hWF : g.WF) :
    (∀ w : Word, willMiss w = true → (tickOne w).status = .missed) ∧
    (∀ k w, lookupA g.words k = some w → willMiss w = true →
      lookupA (g.tick).words k = none) ∧
    (∀ k w, lookupA g.words k = some w → willMiss w = false →
      lookupA (g.tick).words k = some (tickOne w)) ∧
    (∀ sid p, lookupA g.players sid = some p →
      lookupA (g.tick).players sid = some { p with
        lives := p.lives - MISS_LIFE_PENALTY * (missedIds g).length,
        streak := if (missedIds g).isEmpty then p.streak else 0,
        current_word_id := if (missedIds g).any
            (fun wid => p.current_word_id == some wid) then none
          else p.current_word_id }) := by
  obtain ⟨hnd, hwf⟩ := hWF
  have hndm : ((g.words.map (fun kw => (kw.1, tickOne kw.2))).map Prod.fst).Nodup := by
    have he : (g.words.map (fun kw => (kw.1, tickOne kw.2))).map Prod.fst =
        g.words.map Prod.fst := by
      rw [List.map_map]
      rfl
    rw [he]
    exact hnd
  refine ⟨?_, ?_, ?_, ?_⟩
  · intro w hwm
    have hs : ¬ (w.status = .completed ∨ w.status = .missed) := by
      intro hs
      rw [willMiss_skip hs] at hwm
      cases hwm
    have hy : CANVAS_H - 120 ≤ w.y + w.speed := by
      rw [willMiss_active hs] at hwm
      exact of_decide_eq_true hwm
    rw [tickOne_miss hs hy]
  · intro k w hk hwm
    have hmem := mem_missedIds (lookupA_mem hk) (hwf k w hk).1 hwm
    rw [tick_words_eq, lookupA_foldl_eraseA (missedIds g) _ hndm k, if_pos hmem]
  · intro k w hk hwm
    have hnm : k ∉ missedIds g := by
      intro hmem
      unfold missedIds at hmem
      obtain ⟨kw, hkwf, hkid⟩ := List.mem_map.mp hmem
      obtain ⟨hkmem, hkmiss⟩ := List.mem_filter.mp hkwf
      have hwmk : willMiss kw.2 = true := hkmiss
      have hl2 := lookupA_of_mem_nodup hnd hkmem
      have hid := (hwf kw.1 kw.2 hl2).1
      rw [hid] at hkid
      rw [hkid, hk] at hl2
      injection hl2 with hl2
      rw [← hl2] at hwmk
      rw [hwm] at hwmk
      cases hwmk
    rw [tick_words_eq, lookupA_foldl_eraseA (missedIds g) _ hndm k, if_neg hnm]
    have h2 := lookupA_map_val g.words (fun _ v => tickOne v) k
    rw [h2, hk]
    rfl
  · intro sid p hp
    rw [tick_players_eq]
    have h2 := lookupA_map_val g.players (fun _ v => missAll (missedIds g) v) sid
    rw [h2, hp]
    rfl

/-- C3, witness: the facts instantiated in the room where "rocket" sits
one pixel above the miss line. -/
theorem C3_tick_miss_witness :
    (∀ w : Word, willMiss w = true → (tickOne w).status = .missed) ∧
    (∀ k w, lookupA gNear.words k = some w → willMiss w = true →
      lookupA (gNear.tick).words k = none) ∧
    (∀ k w, lookupA gNear.words k = some w → willMiss w = false →
      lookupA (gNear.tick).words k = some (tickOne w)) ∧
    (∀ sid p, lookupA gNear.players sid = some p →
      lookupA (gNear.tick).players sid = some { p with
        lives := p.lives - MISS_LIFE_PENALTY * (missedIds gNear).length,
        streak := if (missedIds gNear).isEmpty then p.streak else 0,
        current_word_id := if (missedIds gNear).any
            (fun wid => p.current_word_id == some wid) then none
          else p.current_word_id }) :=
  C3_tick_miss gNear
    ⟨by decide, fun k w h => by
      rw [show gNear.words = [(widOne, wNear)] from rfl] at h
      unfold lookupA at h
      by_cases hk : widOne = k
      · rw [if_pos hk] at h
        injection h with h
        rw [← hk, ← h]
        exact ⟨rfl, Or.inl rfl, ⟨fun _ => rfl, fun _ => rfl⟩, rfl, fun _ => rfl⟩
      · rw [if_neg hk] at h
        unfold lookupA at h
        cases h⟩

/-- C9, counterexample: `Game.__init__` itself has no fallback.  A room
constructed directly over an empty word list cannot spawn: `spawn_word`
fails (the `rng.choice` of `_choose_unique_text` raises IndexError on
the empty candidate list, modelled as `none`). -/
theorem C9_counterexample :
    ((Game.init roomOne []).spawn_word 0 widOne 100 0).isSome = false ∧
    (Game.init roomOne []).words_list = [] :=
  ⟨by decide, rfl⟩

/-- C9: the empty-bank fallback lives in `load_word_bank`, not in the
room constructor.  Loading an empty raw bank yields the cleaned built-in
default list of 11 words, and a room constructed over that loaded bank
spawns successfully for every random draw. -/
theorem C9_empty_bank_fallback (pick : Nat) (wid : String) (x r : ℚ) :
    load_word_bank [] = cleanWords DEFAULT_WORDS [] ∧
    (load_word_bank []).length = 11 ∧
    ((Game.init roomOne (load_word_bank [])).spawn_word pick wid x r).isSome = true := by
  refine ⟨rfl, by decide, ?_⟩
  have hav : (Game.init roomOne (load_word_bank [])).words_list.filter
      (fun w => decide (w ∉ (Game.init roomOne (load_word_bank [])).active_texts ∧
        w ∉ (Game.init roomOne (load_word_bank [])).used_words)) = load_word_bank [] := by
    decide
  have hch : (Game.init roomOne (load_word_bank []))._choose_unique_text pick =
      (load_word_bank []).get? (pick % 11) := by
    simp only [Game._choose_unique_text]
    rw [hav]
    rw [if_neg (show ¬ (load_word_bank []).isEmpty = true from by decide)]
    rw [show (load_word_bank []).length = 11 from by decide]
  unfold Game.spawn_word
  rw [hch]
  cases hg : (load_word_bank []).get? (pick % 11) with
  | none =>
    rw [List.get?_eq_none] at hg
    rw [show (load_word_bank []).length = 11 from by decide] at hg
    have hlt : pick % 11 < 11 := Nat.mod_lt _ (by omega)
    omega
  | some text => rfl

/-- C9, witness: the loaded empty bank spawns at a concrete draw. -/
theorem C9_empty_bank_fallback_witness :
    load_word_bank [] = cleanWords DEFAULT_WORDS [] ∧
    (load_word_bank []).length = 11 ∧
    ((Game.init roomOne (load_word_bank [])).spawn_word 17 widOne 100 0).isSome = true :=
  C9_empty_bank_fallback 17 widOne 100 0

end STG
